import Mathlib

/-!
Verification of the query-planner core: range points, the range builder,
the merge sweep, plan alternatives and the optimizer pipeline.

The definitions below are a shallow embedding of the Go sources
(`optimizer/plan/range.go`, `optimizer/plan/alternatives.go`,
`optimizer/optimizer.go`, `optimizer/validator.go`,
`optimizer/evaluator/evaluator.go`).  Functions whose bodies are not part
of the provided sources (the refiner, the cost model, `IndexRange.IsPoint`,
the binary-operation and LIKE evaluation, `bindInfo`, `computeType`,
`rewriteStatic`, `buildPlan`) are modelled from the specification and are
marked as such in their doc comments.

Machine details: Go byte strings are `List Nat` with bytes taken modulo 256
where the source increments them; Go `interface{}` values that can hold
`nil`, the sentinels, integers, strings and booleans are the `Value`
inductive; Go panics are `Option`/`none`; the in-place `sort.Sort` is
modelled by the insertion sort that Go's standard sort performs on the
small slices arising here (Go delegates to insertion sort below 12
elements; the swap loop moves an element left while `Less` holds), with
the comparison-error flag of `rangePointSorter` threaded through.
-/

/-- The value domain of a range point: Go `interface{}` holding `nil`
(SQL NULL), the sentinels `MinNotNullVal` and `MaxVal`, an `int64`,
a byte string, or a boolean (booleans only arise as evaluation results,
never inside range points). -/
inductive Value where
  | null
  | minNotNull
  | maxVal
  | int (n : Int)
  | str (s : List Nat)
  | boolv (b : Bool)
deriving DecidableEq, Repr

/-- Three-way comparison on naturals, written out for easy reasoning. -/
def natCmp (a b : Nat) : Ordering :=
  if a < b then .lt else if a = b then .eq else .gt

/-- Three-way comparison on integers, written out for easy reasoning. -/
def intCmp (a b : Int) : Ordering :=
  if a < b then .lt else if a = b then .eq else .gt

/-- Byte-wise lexicographic comparison of Go strings. -/
def lexCmpBytes : List Nat → List Nat → Ordering
  | [], [] => .eq
  | [], _ :: _ => .lt
  | _ :: _, [] => .gt
  | a :: as2, b :: bs2 =>
    match natCmp a b with
    | .eq => lexCmpBytes as2 bs2
    | o => o

/-- `types.Compare` on two concrete (non-sentinel) values: integers compare
numerically, strings byte-wise; comparisons across types yield `none`
(the Go function returns an error there; its numeric coercions are not
modelled — every theorem below compares like-typed values only). -/
def compareConcrete : Value → Value → Option Ordering
  | .int a, .int b => some (intCmp a b)
  | .str a, .str b => some (lexCmpBytes a b)
  | _, _ => none

/-- Go struct `rangePoint{value, excl, start}`. -/
structure RangePoint where
  value : Value
  excl : Bool
  start : Bool
deriving DecidableEq, Repr

/-- Go `rangePointSorter.equalValueLess`. -/
def equalValueLess (a b : RangePoint) : Bool :=
  if a.start && b.start then !a.excl && b.excl
  else if a.start then !b.excl
  else if b.start then a.excl || b.excl
  else a.excl && !b.excl

/-- Go `rangePointSorter.Less`; the second component is true when the call
records a comparison error into the sorter (in which case Go returns
`true` for the comparison itself). -/
def lessE (a b : RangePoint) : Bool × Bool :=
  if a.value = .null ∧ b.value = .null then (equalValueLess a b, false)
  else if b.value = .null then (false, false)
  else if a.value = .null then (true, false)
  else if a.value = .minNotNull ∧ b.value = .minNotNull then (equalValueLess a b, false)
  else if b.value = .minNotNull then (false, false)
  else if a.value = .minNotNull then (true, false)
  else if a.value = .maxVal ∧ b.value = .maxVal then (equalValueLess a b, false)
  else if a.value = .maxVal then (false, false)
  else if b.value = .maxVal then (true, false)
  else
    match compareConcrete a.value b.value with
    | none => (true, true)
    | some .eq => (equalValueLess a b, false)
    | some .lt => (true, false)
    | some .gt => (false, false)

/-- The boolean result of `rangePointSorter.Less`. -/
def rangePointLess (a b : RangePoint) : Bool := (lessE a b).1

/-- One bubbling step of Go's insertion sort, on the reversed sorted
prefix: the new element `x` moves left past `y` while `Less x y` holds.
The error flags of the comparisons performed are accumulated. -/
def insGo (x : RangePoint) : List RangePoint → List RangePoint × Bool
  | [] => ([x], false)
  | y :: ys =>
    let c := lessE x y
    if c.1 then
      let r := insGo x ys
      (y :: r.1, c.2 || r.2)
    else (x :: y :: ys, c.2)

/-- Go's insertion sort over the whole slice (reversed accumulator). -/
def sortGoRev (l : List RangePoint) : List RangePoint × Bool :=
  l.foldl (fun acc x =>
    let r := insGo x acc.1
    (r.1, acc.2 || r.2)) ([], false)

/-- `sort.Sort(&rangePointSorter{...})`: the sorted points plus the
sorter's final error flag. -/
def sortGo (l : List RangePoint) : List RangePoint × Bool :=
  let r := sortGoRev l
  (r.1.reverse, r.2)

/-- The sweep loop of `rangeBuilder.merge`: `count` is `inRangeCount`,
`required` is `requiredInRangeCount`. -/
def sweepGo (required : Int) : List RangePoint → Int → List RangePoint
  | [], _ => []
  | p :: rest, count =>
    if p.start then
      if count + 1 = required then p :: sweepGo required rest (count + 1)
      else sweepGo required rest (count + 1)
    else
      if count = required then p :: sweepGo required rest (count - 1)
      else sweepGo required rest (count - 1)

/-- Go `rangeBuilder.merge`: concatenate, sort, and sweep; when the sorter
recorded a comparison error the builder records it and returns `nil`
(the empty list). -/
def mergeRP (a b : List RangePoint) (union : Bool) : List RangePoint :=
  let s := sortGo (a ++ b)
  if s.2 then [] else sweepGo (if union then 1 else 2) s.1 0

/-- Go `rangeBuilder.intersection`. -/
def intersectionRP (a b : List RangePoint) : List RangePoint := mergeRP a b false

/-- Go `rangeBuilder.union`. -/
def unionRP (a b : List RangePoint) : List RangePoint := mergeRP a b true

/-- Go `fullRange` (`[{MinNotNullVal, start}, {MaxVal}]`). -/
def fullRange : List RangePoint :=
  [⟨.minNotNull, false, true⟩, ⟨.maxVal, false, false⟩]

/-- The opcodes that occur in the planner's binary operations.  `nulleq`
(`<=>`) and `plus` stand for the comparison and arithmetic opcodes that the
range builder's final `switch` does not handle. -/
inductive Op where
  | andand | oror | eq | ne | lt | le | gt | ge | nulleq | plus
deriving DecidableEq, Repr

/-- The expression AST fragment the planner walks.  `row`, `subq`,
`aggregate` and `paramMarker` model `ast.RowExpr`, `ast.SubqueryExpr`
(with the arity of its result-field list), `ast.AggregateFuncExpr` and
`ast.ParamMarkerExpr`; the remaining constructors mirror the `ast` nodes
handled by `rangeBuilder.build`. -/
inductive Expr where
  | value (v : Value)
  | col (name : String)
  | row (items : List Expr)
  | subq (arity : Nat)
  | aggregate
  | paramMarker
  | binop (op : Op) (l r : Expr)
  | inE (isNot : Bool) (probe : Expr) (list : List Expr)
  | betweenE (isNot : Bool) (x lo hi : Expr)
  | isNullE (isNot : Bool) (x : Expr)
  | isTruthE (isNot : Bool) (isTrue : Bool) (x : Expr)
  | likeE (isNot : Bool) (x pat : Expr)
  | paren (x : Expr)

/-- `GetValue()` on an expression node: a `ValueExpr` carries its datum,
any other node yields the zero `interface{}` (nil). -/
def getValue : Expr → Value
  | .value v => v
  | _ => .null

/-- The `ValueExpr` type test used by `buildFromBinop`. -/
def isValueExpr : Expr → Bool
  | .value _ => true
  | _ => false

/-- The operator flip in `buildFromBinop` for `value OP col` shapes. -/
def flipOp : Op → Op
  | .ge => .le
  | .gt => .lt
  | .lt => .gt
  | .le => .ge
  | o => o

/-- The comparison part of `rangeBuilder.buildFromBinop` (everything after
the `OrOr`/`AndAnd` dispatch): extract the constant operand, flip the
operator when the constant is on the left, and emit the points; operators
outside `EQ..GE` fall through to `return nil`. -/
def buildFromBinopCmp (op0 : Op) (l r : Expr) : List RangePoint :=
  let value := if isValueExpr l then getValue l else getValue r
  let op := if isValueExpr l then flipOp op0 else op0
  match op with
  | .eq => [⟨value, false, true⟩, ⟨value, false, false⟩]
  | .ne => [⟨.minNotNull, false, true⟩, ⟨value, true, false⟩,
            ⟨value, true, true⟩, ⟨.maxVal, false, false⟩]
  | .lt => [⟨.minNotNull, false, true⟩, ⟨value, true, false⟩]
  | .le => [⟨.minNotNull, false, true⟩, ⟨value, false, false⟩]
  | .gt => [⟨value, true, true⟩, ⟨.maxVal, false, false⟩]
  | .ge => [⟨value, false, true⟩, ⟨.maxVal, false, false⟩]
  | _ => []

/-- Go `rangeBuilder.buildFromIn`: panics (`none`) on `NOT IN`; otherwise
emits a start/end pair per list element and sorts them (a sorter error is
recorded in the builder but the sorted points are still returned). -/
def buildFromIn (isNot : Bool) (list : List Expr) : Option (List RangePoint) :=
  if isNot then none
  else
    let pts := list.foldr
      (fun v acc => ⟨getValue v, false, true⟩ :: ⟨getValue v, false, false⟩ :: acc) []
    some (sortGo pts).1

/-- Go `rangeBuilder.buildFromBetween`: emits the endpoint tuples directly
from the bound values. -/
def buildFromBetween (isNot : Bool) (lo hi : Value) : List RangePoint :=
  if isNot then
    [⟨.minNotNull, false, true⟩, ⟨lo, true, false⟩,
     ⟨hi, true, true⟩, ⟨.maxVal, false, false⟩]
  else [⟨lo, false, true⟩, ⟨hi, false, false⟩]

/-- Go `rangeBuilder.buildFromIsNull`. -/
def buildFromIsNull (isNot : Bool) : List RangePoint :=
  if isNot then [⟨.minNotNull, false, true⟩, ⟨.maxVal, false, false⟩]
  else [⟨.null, false, true⟩, ⟨.null, false, false⟩]

/-- Go `rangeBuilder.buildFromIsTruth`. -/
def buildFromIsTruth (isNot : Bool) (isTrue : Bool) : List RangePoint :=
  if isTrue then
    if isNot then
      [⟨.null, false, true⟩, ⟨.null, false, false⟩,
       ⟨.int 0, false, true⟩, ⟨.int 0, false, false⟩]
    else
      [⟨.minNotNull, false, true⟩, ⟨.int 0, true, false⟩,
       ⟨.int 0, true, true⟩, ⟨.maxVal, false, false⟩]
  else
    if isNot then
      [⟨.null, false, true⟩, ⟨.int 0, true, false⟩,
       ⟨.int 0, true, true⟩, ⟨.maxVal, false, false⟩]
    else [⟨.int 0, false, true⟩, ⟨.int 0, false, false⟩]

/-- The prefix-extraction loop of `buildFromPatternLike`: unescape
backslashes, stop at `%`, and stop with the exclusive flag at `.`
(a dot, exactly as the source tests the byte). -/
def likeLow : List Nat → List Nat × Bool
  | [] => ([], false)
  | c :: rest =>
    if c = 92 then
      match rest with
      | [] => ([92], false)
      | d :: rest2 =>
        let p := likeLow rest2
        (d :: p.1, p.2)
    else if c = 37 then ([], false)
    else if c = 46 then ([], true)
    else
      let p := likeLow rest
      (c :: p.1, p.2)

/-- The carry loop of `buildFromPatternLike` on the reversed bytes:
increment the last byte modulo 256; a wrapped byte stays zero and the
carry moves left; `none` when the carry falls off the front. -/
def incByteRev : List Nat → Option (List Nat)
  | [] => none
  | c :: rest =>
    if (c + 1) % 256 ≠ 0 then some ((c + 1) % 256 :: rest)
    else
      match incByteRev rest with
      | some r => some (0 :: r)
      | none => none

/-- The upper bound of a LIKE prefix range: the prefix with its last byte
incremented with carry, or `none` when every byte wrapped (Go then uses
`MaxVal`). -/
def incBytes (l : List Nat) : Option (List Nat) :=
  (incByteRev l.reverse).map List.reverse

/-- Go `rangeBuilder.buildFromPatternLike`: panics (`none`) on `NOT LIKE`
and on a non-string pattern datum (the `.(string)` type assertion);
otherwise builds `[prefix, next(prefix))` with the exclusive-start flag
set by the loop above. -/
def buildFromPatternLike (isNot : Bool) (patVal : Value) : Option (List RangePoint) :=
  if isNot then none
  else
    match patVal with
    | .str pattern =>
      let p := likeLow pattern
      if p.1 = [] then
        some [⟨.minNotNull, false, true⟩, ⟨.maxVal, false, false⟩]
      else
        let endPoint : RangePoint :=
          match incBytes p.1 with
          | some h => ⟨.str h, true, false⟩
          | none => ⟨.maxVal, true, false⟩
        some [⟨.str p.1, p.2, true⟩, endPoint]
    | _ => none

/-- Go `rangeBuilder.buildFromColumnName` (bare column ≡ `IS TRUE`). -/
def buildFromColumnName : List RangePoint :=
  [⟨.minNotNull, false, true⟩, ⟨.int 0, true, false⟩,
   ⟨.int 0, true, true⟩, ⟨.maxVal, false, false⟩]

/-- Go `rangeBuilder.build`.  The `OrOr`/`AndAnd` dispatch of
`buildFromBinop` is inlined here so the recursion is structural; panics
propagate as `none`; node kinds outside the `switch` fall through to
`fullRange`. -/
def build : Expr → Option (List RangePoint)
  | .binop .oror l r => do
    let a ← build l
    let b ← build r
    pure (unionRP a b)
  | .binop .andand l r => do
    let a ← build l
    let b ← build r
    pure (intersectionRP a b)
  | .binop op l r => some (buildFromBinopCmp op l r)
  | .inE isNot _ list => buildFromIn isNot list
  | .paren x => build x
  | .betweenE isNot _ lo hi => some (buildFromBetween isNot (getValue lo) (getValue hi))
  | .isNullE isNot _ => some (buildFromIsNull isNot)
  | .isTruthE isNot tru _ => some (buildFromIsTruth isNot tru)
  | .likeE isNot _ pat => buildFromPatternLike isNot (getValue pat)
  | .col _ => some buildFromColumnName
  | _ => some fullRange

/-- Byte list of a Lean string literal (ASCII), for concrete test inputs. -/
def strBytes (s : String) : List Nat := s.toList.map Char.toNat

/-- Total comparison on the value domain used to STATE membership of a
value in an interval, following the spec's ordering
`NULL < MinNotNull < any real value < MaxVal` (§3); like-ranked concrete
values compare as in `compareConcrete`.  (Cross-type concrete ranks are
ordered arbitrarily to make the function total; no theorem relies on
them.) -/
def valRank : Value → Nat
  | .null => 0
  | .minNotNull => 1
  | .boolv _ => 2
  | .int _ => 3
  | .str _ => 4
  | .maxVal => 5

/-- See `valRank`. -/
def valCmp (a b : Value) : Ordering :=
  match a, b with
  | .int x, .int y => intCmp x y
  | .str x, .str y => lexCmpBytes x y
  | .boolv x, .boolv y => natCmp (cond x 1 0) (cond y 1 0)
  | _, _ => natCmp (valRank a) (valRank b)

/-- Does `v` lie in the interval whose endpoints are the two points
`lo`/`hi` (half-openness per the `excl` flags)? -/
def inIntervalRP (lo hi : RangePoint) (v : Value) : Bool :=
  (match valCmp lo.value v with
   | .lt => true
   | .eq => !lo.excl
   | .gt => false) &&
  (match valCmp v hi.value with
   | .lt => true
   | .eq => !hi.excl
   | .gt => false)

/-- "v lies in some interval of the range-point list": consecutive points
pair up as intervals. -/
def containsVal : List RangePoint → Value → Bool
  | lo :: hi :: rest, v => inIntervalRP lo hi v || containsVal rest v
  | _, _ => false

/-- `types.ToBool`, normalising to 0/1.  Modelled from the spec for the
types the verified fragment evaluates (integers and booleans); other
types are an error here. -/
def toBool : Value → Option Int
  | .int n => some (if n = 0 then 0 else 1)
  | .boolv b => some (if b then 1 else 0)
  | _ => none

/-- Truth of a comparison outcome for each comparison opcode. -/
def opHolds : Op → Ordering → Bool
  | .eq, o => o = .eq
  | .ne, o => o ≠ .eq
  | .lt, o => o = .lt
  | .le, o => o ≠ .gt
  | .gt, o => o = .gt
  | .ge, o => o ≠ .lt
  | _, _ => false

/-- Modelled from the spec: the evaluator's binary comparison
(`binaryOperation`, whose body is outside the provided sources): a NULL
operand yields NULL, otherwise the operands are compared with
`types.Compare` and the opcode decides the boolean. -/
def cmp3 (op : Op) (a b : Value) : Option Value :=
  if a = .null ∨ b = .null then some .null
  else
    match compareConcrete a b with
    | none => none
    | some o => some (.boolv (opHolds op o))

/-- Three-valued logical AND (`none` is SQL NULL). -/
def and3 : Option Bool → Option Bool → Option Bool
  | some false, _ => some false
  | _, some false => some false
  | some true, some true => some true
  | _, _ => none

/-- Three-valued logical OR. -/
def or3 : Option Bool → Option Bool → Option Bool
  | some true, _ => some true
  | _, some true => some true
  | some false, some false => some false
  | _, _ => none

/-- Convert an evaluated operand to three-valued truth (`ToBool` with NULL
passed through); the outer `Option` is an evaluation error. -/
def triOf (v : Value) : Option (Option Bool) :=
  match v with
  | .null => some none
  | w => (toBool w).map (fun i => some (decide (i ≠ 0)))

/-- Back from three-valued truth to a SQL value. -/
def triVal : Option Bool → Value
  | none => .null
  | some b => .boolv b

/-- The scan loop of `Evaluator.patternIn`: skip NULL list elements
(recording their presence), compare the probe against each element,
answer on the first match, and fall back to NULL or the `Not` default. -/
def patternInLoop (isNot : Bool) (probe : Value) :
    List Value → Bool → Option Value
  | [], hasNull => if hasNull then some .null else some (.boolv isNot)
  | w :: rest, hasNull =>
    if w = .null then patternInLoop isNot probe rest true
    else
      match compareConcrete probe w with
      | none => none
      | some .eq => some (.boolv (!isNot))
      | some _ => patternInLoop isNot probe rest hasNull

/-- Modelled from the spec: SQL LIKE matching over bytes with `%`
(any sequence), `_` (any single byte) and backslash escapes — the
evaluator's `patternLike` body is outside the provided sources. -/
def likeMatch : List Nat → List Nat → Bool
  | [], [] => true
  | [], _ :: _ => false
  | 37 :: ps, s =>
    likeMatch ps s ||
      (match s with
       | [] => false
       | _ :: s2 => likeMatch (37 :: ps) s2)
  | 95 :: ps, s =>
    (match s with
     | [] => false
     | _ :: s2 => likeMatch ps s2)
  | 92 :: p :: ps, s =>
    (match s with
     | c :: s2 => c = p && likeMatch ps s2
     | [] => false)
  | p :: ps, s =>
    (match s with
     | c :: s2 => c = p && likeMatch ps s2
     | [] => false)
termination_by p s => (s.length, p.length)

/-- The expression evaluator specialised to a single row: `v` is the
datum of the (unique) column, so `ColumnNameExpr.GetValue()` returns `v`.
Constructs in the provided `evaluator.go` (`between`, `patternIn`,
`isNull`, `isTruth`, parentheses, values, columns) are translated from it;
`BETWEEN` evaluates exactly its desugaring into `>=`/`<=` (`<`/`>` when
negated) combined with AND (OR); the comparison and LIKE cases are
modelled from the spec as marked above.  `none` is an evaluation error. -/
def evalE : Expr → Value → Option Value
  | .value w, _ => some w
  | .col _, v => some v
  | .paren x, v => evalE x v
  | .binop .andand l r, v => do
    let lv ← evalE l v
    let rv ← evalE r v
    let lt ← triOf lv
    let rt ← triOf rv
    pure (triVal (and3 lt rt))
  | .binop .oror l r, v => do
    let lv ← evalE l v
    let rv ← evalE r v
    let lt ← triOf lv
    let rt ← triOf rv
    pure (triVal (or3 lt rt))
  | .binop op l r, v => do
    let lv ← evalE l v
    let rv ← evalE r v
    cmp3 op lv rv
  | .inE isNot x list, v => do
    let probe ← evalE x v
    if probe = .null then pure .null
    else patternInLoop isNot probe (list.map getValue) false
  | .betweenE isNot x lo hi, v => do
    let xv ← evalE x v
    let lv ← evalE lo v
    let hv ← evalE hi v
    if isNot then do
      let a ← cmp3 .lt xv lv
      let b ← cmp3 .gt xv hv
      let ta ← triOf a
      let tb ← triOf b
      pure (triVal (or3 ta tb))
    else do
      let a ← cmp3 .ge xv lv
      let b ← cmp3 .le xv hv
      let ta ← triOf a
      let tb ← triOf b
      pure (triVal (and3 ta tb))
  | .isNullE isNot x, v => do
    let xv ← evalE x v
    pure (.boolv ((xv == .null) != isNot))
  | .isTruthE isNot tru x, v => do
    let xv ← evalE x v
    if xv = .null then pure (.boolv isNot)
    else do
      let i ← toBool xv
      pure (.boolv ((i == (if tru then 1 else 0)) != isNot))
  | .likeE isNot x pat, v => do
    let tv ← evalE x v
    match tv, getValue pat with
    | .null, _ => pure .null
    | .str sv, .str pv => pure (.boolv (likeMatch pv sv != isNot))
    | _, _ => none
  | _, _ => none

/-- `EvalBool`: evaluate, map NULL to false, convert with `ToBool`. -/
def evalBool (e : Expr) (v : Value) : Option Bool := do
  let r ← evalE e v
  if r = .null then pure false
  else do
    let i ← toBool r
    pure (i ≠ 0)

/-- Go struct `IndexRange{LowVal, LowExclude, HighVal, HighExclude}`. -/
structure IndexRange where
  lowVal : List Value
  lowExclude : Bool
  highVal : List Value
  highExclude : Bool
deriving DecidableEq, Repr

/-- Modelled from the spec: `IndexRange.IsPoint` (body outside the
provided sources): low and high bounds equal componentwise and neither
bound exclusive (§3, glossary). -/
def isPointIR (r : IndexRange) : Bool :=
  r.lowVal == r.highVal && !r.lowExclude && !r.highExclude

/-- Go `rangeBuilder.buildIndexRanges`: one single-column `IndexRange` per
consecutive pair of points; an odd point list runs off the slice
(`none`). -/
def buildIndexRanges : List RangePoint → Option (List IndexRange)
  | [] => some []
  | s :: e :: rest =>
    (buildIndexRanges rest).map
      (fun t => ⟨[s.value], s.excl, [e.value], e.excl⟩ :: t)
  | [_] => none

/-- Go `rangeBuilder.appendIndexRange`: extend one origin range with every
pair of the new column's points. -/
def appendIndexRange (origin : IndexRange) : List RangePoint → Option (List IndexRange)
  | [] => some []
  | s :: e :: rest =>
    (appendIndexRange origin rest).map
      (fun t => ⟨origin.lowVal ++ [s.value], s.excl,
                 origin.highVal ++ [e.value], e.excl⟩ :: t)
  | [_] => none

/-- Go `rangeBuilder.appendIndexRanges`: walk the origin ranges in order,
pass non-point ranges through, expand point ranges. -/
def appendIndexRanges (origin : List IndexRange) (pts : List RangePoint) :
    Option (List IndexRange) :=
  match origin with
  | [] => some []
  | r :: rest =>
    if !isPointIR r then (appendIndexRanges rest pts).map (fun t => r :: t)
    else do
      let e ← appendIndexRange r pts
      let t ← appendIndexRanges rest pts
      pure (e ++ t)

/-- Catalog index metadata: name and key columns in order. -/
structure IndexInfo where
  name : String
  columns : List String
deriving DecidableEq, Repr

/-- Catalog table metadata; `rows` is the approximate row count the cost
model reads. -/
structure TableInfo where
  name : String
  indices : List IndexInfo
  rows : Nat
deriving DecidableEq, Repr

/-- Projection fields of a `SELECT`: an unqualified or qualified wildcard,
or an expression. -/
inductive SField where
  | wildcard (tblQualifier : String)
  | fexpr (e : Expr)

/-- The plan node variants (`plan.go`); `nilPlan` is Go's nil `Plan`
(the source of a `SelectFields` for a `SELECT` without `FROM`), matching
the explicit `case nil` in `Alternatives`. -/
inductive Plan where
  | nilPlan
  | tableScan (tbl : TableInfo) (fields : List SField)
  | indexScan (idx : IndexInfo) (tbl : TableInfo) (ranges : List IndexRange)
      (fields : List SField)
  | filter (conds : List Expr) (src : Plan)
  | selectLock (forUpdate : Bool) (src : Plan)
  | selectFields (fields : List SField) (src : Plan)
  | sortP (byItems : List Expr) (src : Plan)
  | limit (off cnt : Nat) (src : Plan)

/-- Top-level conjuncts of a condition (the refiner's decomposition). -/
def splitCNF : Expr → List Expr
  | .binop .andand l r => splitCNF l ++ splitCNF r
  | e => [e]

mutual
/-- All column names occurring in an expression. -/
def colNames : Expr → List String
  | .col n => [n]
  | .binop _ l r => colNames l ++ colNames r
  | .inE _ x list => colNames x ++ colNamesList list
  | .betweenE _ x lo hi => colNames x ++ colNames lo ++ colNames hi
  | .isNullE _ x => colNames x
  | .isTruthE _ _ x => colNames x
  | .likeE _ x p => colNames x ++ colNames p
  | .paren x => colNames x
  | .row items => colNamesList items
  | _ => []

/-- See `colNames`. -/
def colNamesList : List Expr → List String
  | [] => []
  | e :: rest => colNames e ++ colNamesList rest
end

/-- The unique column a conjunct references, when there is exactly one. -/
def refCol (e : Expr) : Option String :=
  match (colNames e).dedup with
  | [n] => some n
  | _ => none

/-- Intersection of the range sets of a non-empty conjunct list
(used by the refiner for conjuncts on the same index column). -/
def buildConjPts : List Expr → Option (List RangePoint)
  | [] => some fullRange
  | e :: rest => do
    let a ← build e
    let b ← buildConjPts rest
    match rest with
    | [] => pure a
    | _ => pure (intersectionRP a b)

/-- Modelled from the spec (§4.2, §4.7): after the leading index column's
range list exists, conjuncts on each further index column in order are
folded in with `appendIndexRanges`; the walk stops at the first column
without a matching conjunct.  Returns the ranges and the conjuncts that
were not absorbed. -/
def refineAppendCols : List String → List Expr → List IndexRange →
    Option (List IndexRange × List Expr)
  | [], conds, ranges => some (ranges, conds)
  | c :: cols, conds, ranges =>
    let matching := conds.filter (fun e => refCol e == some c)
    if matching.isEmpty then some (ranges, conds)
    else do
      let pts ← buildConjPts matching
      let ranges2 ← appendIndexRanges ranges pts
      refineAppendCols cols (conds.filter (fun e => !(refCol e == some c))) ranges2

/-- Modelled from the spec (§4.7 Refiner; the refiner source is outside
the provided sources): visit the chain root to leaf; at a `Filter`
directly above an `IndexScan`, build the ranges of the conjuncts matching
the index's leading column, extend with further prefix columns, keep the
unabsorbed conjuncts, and drop the `Filter` when all conjuncts are
absorbed.  Predicate push-down into `TableScan` handle ranges is not
modelled (the claims below do not depend on it); a builder panic
propagates as `none`. -/
def refine : Plan → Option Plan
  | .filter conds (.indexScan idx t ranges0 fs) =>
    match idx.columns with
    | [] => some (.filter conds (.indexScan idx t ranges0 fs))
    | c1 :: cols =>
      let conjuncts := conds.flatMap splitCNF
      let m1 := conjuncts.filter (fun e => refCol e == some c1)
      if m1.isEmpty then some (.filter conds (.indexScan idx t ranges0 fs))
      else do
        let pts ← buildConjPts m1
        let r1 ← buildIndexRanges pts
        let res ← refineAppendCols cols
          (conjuncts.filter (fun e => !(refCol e == some c1))) r1
        let scan := Plan.indexScan idx t res.1 fs
        if res.2.isEmpty then pure scan else pure (.filter res.2 scan)
  | .filter conds src => (refine src).map (fun s => .filter conds s)
  | .selectLock b src => (refine src).map (fun s => .selectLock b s)
  | .selectFields fs src => (refine src).map (fun s => .selectFields fs s)
  | .sortP bys src => (refine src).map (fun s => .sortP bys s)
  | .limit o c src => (refine src).map (fun s => .limit o c s)
  | p => some p

/-- Go `tableScanAlternatives`: one `IndexScan` per index of the table,
each with the universal first-column range `[nil, MaxVal]`, carrying the
table scan's fields. -/
def tableScanAlternatives (t : TableInfo) (fields : List SField) : List Plan :=
  t.indices.map (fun idx =>
    .indexScan idx t [⟨[.null], false, [.maxVal], false⟩] fields)

/-- The construction part of Go `Alternatives` (the `switch`): `case nil`
yields no plans, a `TableScan` leaf yields the index alternatives, a
`WithSrcPlan` shallow-copies itself onto each alternative of its source,
and the `default` branch is `log.Fatalf` (`none`). -/
def alternativesRaw : Plan → Option (List Plan)
  | .nilPlan => some []
  | .tableScan t fs => some (tableScanAlternatives t fs)
  | .filter conds src =>
    (alternativesRaw src).map (List.map (fun s => .filter conds s))
  | .selectLock b src =>
    (alternativesRaw src).map (List.map (fun s => .selectLock b s))
  | .selectFields fs src =>
    (alternativesRaw src).map (List.map (fun s => .selectFields fs s))
  | .sortP bys src =>
    (alternativesRaw src).map (List.map (fun s => .sortP bys s))
  | .limit o c src =>
    (alternativesRaw src).map (List.map (fun s => .limit o c s))
  | .indexScan _ _ _ _ => none

/-- Go `Alternatives` (`alternatives.go`): build the alternative plans,
then refine each one in place before returning them. -/
def Alternatives (p : Plan) : Option (List Plan) := do
  let plans ← alternativesRaw p
  plans.mapM refine

/-- The table at the leaf of a linear chain, when the leaf is a
`TableScan`. -/
def leafTable : Plan → Option TableInfo
  | .tableScan t _ => some t
  | .filter _ s => leafTable s
  | .selectLock _ s => leafTable s
  | .selectFields _ s => leafTable s
  | .sortP _ s => leafTable s
  | .limit _ _ s => leafTable s
  | _ => none

/-- The index at the leaf of a linear chain, when the leaf is an
`IndexScan`. -/
def leafIndexName : Plan → Option String
  | .indexScan idx _ _ _ => some idx.name
  | .filter _ s => leafIndexName s
  | .selectLock _ s => leafIndexName s
  | .selectFields _ s => leafIndexName s
  | .sortP _ s => leafIndexName s
  | .limit _ _ s => leafIndexName s
  | _ => none

/-- The shape of the `FROM` clause as the support checker probes it:
a single `TableSource` wrapping a `TableName` (with its schema qualifier
and resolved table), a join with a right-hand side, or the two degenerate
shapes the checker rejects. -/
inductive JoinShape where
  | single (schema : String) (tbl : TableInfo)
  | withRight (schema : String) (tbl : TableInfo)
  | leftNotTableSource
  | sourceNotTableName

/-- A `SELECT` statement after parsing and (mock) resolution. -/
structure SelectStmt where
  distinct : Bool
  hasGroupBy : Bool
  hasHaving : Bool
  fromJoin : Option JoinShape
  fields : List SField
  whereCond : Option Expr
  orderBy : List Expr
  limitCl : Option (Nat × Nat)
  forUpdate : Bool

/-- A statement handed to `Supported`: a `SELECT` or anything else. -/
inductive Stmt where
  | sel (s : SelectStmt)
  | nonSelect

mutual
/-- Does the expression contain a node whose type the support checker's
`Enter` flags (`SubqueryExpr`, `AggregateFuncExpr`, `ParamMarkerExpr`)?
Note the source has no case for `PatternInExpr` or `PatternLikeExpr`,
so their `Not` flags are never inspected. -/
def exprUnsupported : Expr → Bool
  | .subq _ => true
  | .aggregate => true
  | .paramMarker => true
  | .binop _ l r => exprUnsupported l || exprUnsupported r
  | .inE _ x list => exprUnsupported x || exprListUnsupported list
  | .betweenE _ x lo hi =>
    exprUnsupported x || exprUnsupported lo || exprUnsupported hi
  | .isNullE _ x => exprUnsupported x
  | .isTruthE _ _ x => exprUnsupported x
  | .likeE _ x p => exprUnsupported x || exprUnsupported p
  | .paren x => exprUnsupported x
  | .row items => exprListUnsupported items
  | _ => false

/-- See `exprUnsupported`. -/
def exprListUnsupported : List Expr → Bool
  | [] => false
  | e :: rest => exprUnsupported e || exprListUnsupported rest
end

/-- ASCII upper-casing of a string's bytes (for the case-insensitive
schema-name comparison `strings.EqualFold`). -/
def upperBytes (s : String) : List Nat :=
  s.toList.map (fun c =>
    let n := c.toNat
    if 97 ≤ n ∧ n ≤ 122 then n - 32 else n)

/-- `strings.EqualFold(schema, infoschema.Name)` on ASCII names. -/
def eqFoldInfoSchema (s : String) : Bool :=
  upperBytes s == upperBytes "INFORMATION_SCHEMA"

/-- The end state of walking a statement with `supportChecker`
(`optimizer.go`): `DISTINCT`, `GROUP BY`, `HAVING`, bad join shapes, an
information-schema table, or an unsupported expression node anywhere. -/
def stmtUnsupported (s : SelectStmt) : Bool :=
  s.distinct || s.hasGroupBy || s.hasHaving ||
  (match s.fromJoin with
   | none => false
   | some (.single schema _) => eqFoldInfoSchema schema
   | some (.withRight _ _) => true
   | some .leftNotTableSource => true
   | some .sourceNotTableName => true) ||
  (match s.whereCond with
   | none => false
   | some e => exprUnsupported e) ||
  s.fields.any (fun f =>
    match f with
    | .wildcard _ => false
    | .fexpr e => exprUnsupported e) ||
  s.orderBy.any exprUnsupported

/-- Go `Supported`: the node must be a `SelectStmt` and the checker walk
must not flag it. -/
def Supported : Stmt → Bool
  | .nonSelect => false
  | .sel s => !stmtUnsupported s

/-- The planner error values (`optimizer` error codes plus the modelled
binding error and the internal-assertion failure used for Go panics). -/
inductive PlanErr where
  | oneColumn
  | rowColumns
  | sameColumns
  | multiWildCard
  | badTable (name : String)
  | internalPanic
deriving DecidableEq, Repr

/-- Go `columnCount` (`validator.go`). -/
def columnCount : Expr → Nat
  | .row items => items.length
  | .subq arity => arity
  | _ => 1

/-- The per-expression test of Go `checkAllOneColumn`. -/
def checkOne : Expr → Option PlanErr
  | .row _ => some .oneColumn
  | .subq a => if a ≠ 1 then some .oneColumn else none
  | _ => none

/-- Go `validator.checkAllOneColumn` over an argument list. -/
def checkAllOneColumn : List Expr → Option PlanErr
  | [] => none
  | e :: rest =>
    match checkOne e with
    | some er => some er
    | none => checkAllOneColumn rest

/-- Go `validator.checkSameColumns`. -/
def checkSameColumns : List Expr → Option PlanErr
  | [] => none
  | e :: rest =>
    if rest.all (fun x => columnCount x = columnCount e) then none
    else some .sameColumns

/-- Go `validator.checkBinaryOperation`: comparisons need matching
column counts, anything else needs single-column operands. -/
def checkBinaryOperation (op : Op) (l r : Expr) : Option PlanErr :=
  match op with
  | .lt | .le | .ge | .gt | .eq | .ne | .nulleq => checkSameColumns [l, r]
  | _ => checkAllOneColumn [l, r]

mutual
/-- The validator's post-order walk over one expression: children first,
then the node's own `Leave` check; the first error stops the walk.
The checks are those of `validator.Leave` (`IsNullExpr`, `IsTruthExpr`,
`BetweenExpr`, `RowExpr`, `BinaryOperationExpr`, `PatternInExpr`); there
is no check for LIKE nodes. -/
def validateExpr : Expr → Option PlanErr
  | .binop op l r =>
    match validateExpr l with
    | some er => some er
    | none =>
      match validateExpr r with
      | some er => some er
      | none => checkBinaryOperation op l r
  | .inE _ x list =>
    match validateExpr x with
    | some er => some er
    | none =>
      match validateExprList list with
      | some er => some er
      | none => checkSameColumns (list ++ [x])
  | .betweenE _ x lo hi =>
    match validateExpr x with
    | some er => some er
    | none =>
      match validateExpr lo with
      | some er => some er
      | none =>
        match validateExpr hi with
        | some er => some er
        | none => checkAllOneColumn [x, lo, hi]
  | .isNullE _ x =>
    match validateExpr x with
    | some er => some er
    | none => checkAllOneColumn [x]
  | .isTruthE _ _ x =>
    match validateExpr x with
    | some er => some er
    | none => checkAllOneColumn [x]
  | .likeE _ x p =>
    match validateExpr x with
    | some er => some er
    | none => validateExpr p
  | .paren x => validateExpr x
  | .row items =>
    match validateExprList items with
    | some er => some er
    | none => if items.length < 2 then some .rowColumns else none
  | _ => none

/-- See `validateExpr`. -/
def validateExprList : List Expr → Option PlanErr
  | [] => none
  | e :: rest =>
    match validateExpr e with
    | some er => some er
    | none => validateExprList rest
end

/-- Go `validator.checkFieldList`: at most one unqualified wildcard, and
single-column field expressions. -/
def checkFieldList : List SField → Bool → Option PlanErr
  | [], _ => none
  | .wildcard q :: rest, hasW =>
    if q = "" then
      if hasW then some .multiWildCard else checkFieldList rest true
    else checkFieldList rest hasW
  | .fexpr e :: rest, hasW =>
    match checkOne e with
    | some er => some er
    | none => checkFieldList rest hasW

/-- Go `validate` on a `SELECT`: walk the field expressions, the field
list check, the `WHERE` expression, and the `ORDER BY` items (each a
single-column check). -/
def validateStmt (s : SelectStmt) : Option PlanErr :=
  match validateExprList (s.fields.foldr
    (fun f acc =>
      match f with
      | .wildcard _ => acc
      | .fexpr e => e :: acc) []) with
  | some er => some er
  | none =>
    match checkFieldList s.fields false with
    | some er => some er
    | none =>
      match (match s.whereCond with
             | none => none
             | some w => validateExpr w) with
      | some er => some er
      | none =>
        match validateExprList s.orderBy with
        | some er => some er
        | none =>
          match checkAllOneColumn s.orderBy with
          | some er => some er
          | none => none

/-- Go `validate` (the validator has no checks outside `SELECT`
expressions in this fragment). -/
def validate : Stmt → Option PlanErr
  | .sel s => validateStmt s
  | .nonSelect => none

/-- The catalog snapshot: the set of (schema, table) names that resolve. -/
structure InfoSchema where
  tables : List (String × String)
deriving DecidableEq, Repr

/-- Modelled from the spec (§6, §7: `bindInfo` is outside the provided
sources): binding fails with a MySQL-style error when the statement's
table does not resolve in the catalog snapshot. -/
def bindInfo (is2 : InfoSchema) (s : SelectStmt) : Option PlanErr :=
  match s.fromJoin with
  | some (.single schema t) =>
    if is2.tables.contains (schema, t.name) then none
    else some (.badTable t.name)
  | _ => none

/-- Modelled from the spec: the type-computation pass; the spec names no
failure condition for the supported fragment, so it always succeeds. -/
def computeType (_ : SelectStmt) : Option PlanErr := none

/-- Modelled from the spec: the static-rewrite (constant folding) pass;
value nodes already carry their data in this model, so it is a no-op. -/
def rewriteStatic (_ : SelectStmt) : Option PlanErr := none

/-- Modelled from the spec (§4.5 Plan Builder): `TableScan` → `Filter`
(if `WHERE`, capturing the expression verbatim) → `SelectLock` (if
`FOR UPDATE`) → `SelectFields` → `Sort` (if `ORDER BY`) → `Limit` (if
`LIMIT`); a `SELECT` without `FROM` starts at `SelectFields` over the nil
plan. -/
def buildPlan (s : SelectStmt) : Plan :=
  let base : Plan :=
    match s.fromJoin with
    | some (.single _ t) =>
      let scan := Plan.tableScan t s.fields
      let f :=
        match s.whereCond with
        | none => scan
        | some w => Plan.filter [w] scan
      if s.forUpdate then Plan.selectLock true f else f
    | _ => Plan.nilPlan
  let pf := Plan.selectFields s.fields base
  let ps :=
    match s.orderBy with
    | [] => pf
    | bys => Plan.sortP bys pf
  match s.limitCl with
  | none => ps
  | some (o, c) => Plan.limit o c ps

/-- Modelled from the spec (§4.8): estimated output rows of a node. -/
def rowEst : Plan → Nat
  | .nilPlan => 0
  | .tableScan t _ => t.rows
  | .indexScan _ t rs _ =>
    (rs.map (fun r => if isPointIR r then 1 else t.rows)).sum
  | .filter _ s => rowEst s
  | .selectLock _ s => rowEst s
  | .selectFields _ s => rowEst s
  | .sortP _ s => rowEst s
  | .limit _ c s => min (rowEst s) c

/-- Modelled from the spec (§4.8 Cost Model): table scans cost the row
count, index scans the sum of range widths (1 per point range), `Filter`
adds a per-row term, `Sort` an `n log n` term, `Limit` caps at
`offset + count`, the rest are neutral. -/
def EstimateCost : Plan → Nat
  | .nilPlan => 0
  | .tableScan t _ => t.rows
  | .indexScan _ t rs _ =>
    (rs.map (fun r => if isPointIR r then 1 else t.rows)).sum
  | .filter _ s => EstimateCost s + rowEst s
  | .selectLock _ s => EstimateCost s
  | .selectFields _ s => EstimateCost s
  | .sortP _ s => EstimateCost s + rowEst s * Nat.log2 (rowEst s)
  | .limit o c s => min (EstimateCost s) (o + c)

/-- The best-plan selection loop of `Optimize`: strict improvement only,
so ties keep the earlier plan. -/
def optimizeLoop (bestPlan : Plan) (bestCost : Nat) : List Plan → Plan
  | [] => bestPlan
  | alt :: rest =>
    if EstimateCost alt < bestCost then optimizeLoop alt (EstimateCost alt) rest
    else optimizeLoop bestPlan bestCost rest

/-- Turn a Go panic (`none`) into a fatal error. -/
def orPanic : Option α → Except PlanErr α
  | some a => .ok a
  | none => .error .internalPanic

/-- Go `Optimize` (`optimizer.go`): validate, bind, compute types,
rewrite, build the plan, enumerate alternatives, refine the original and
each alternative, and keep the cheapest (ties favour the original /
earlier alternatives).  The pipeline steps whose sources are missing are
the spec-modelled functions above. -/
def Optimize (is2 : InfoSchema) (s : SelectStmt) : Except PlanErr Plan := do
  match validate (.sel s) with
  | some er => throw er
  | none => pure ()
  match bindInfo is2 s with
  | some er => throw er
  | none => pure ()
  match computeType s with
  | some er => throw er
  | none => pure ()
  match rewriteStatic s with
  | some er => throw er
  | none => pure ()
  let p := buildPlan s
  let alts ← orPanic (alternativesRaw p)
  let p2 ← orPanic (refine p)
  let rAlts ← orPanic (alts.mapM refine)
  pure (optimizeLoop p2 (EstimateCost p2) rAlts)

/-- Test fixture: table `t` with a single-column index `a`. -/
def tblT : TableInfo := ⟨"t", [⟨"a", ["a"]⟩], 100⟩

/-- Test fixture: `SELECT * FROM test.t WHERE a NOT IN (1)`. -/
def stmtNotIn : SelectStmt :=
  { distinct := false, hasGroupBy := false, hasHaving := false,
    fromJoin := some (.single "test" tblT),
    fields := [.wildcard ""],
    whereCond := some (.inE true (.col "a") [.value (.int 1)]),
    orderBy := [], limitCl := none, forUpdate := false }

/-- Test fixture: `SELECT * FROM test.t` (no WHERE). -/
def stmtPlain : SelectStmt :=
  { distinct := false, hasGroupBy := false, hasHaving := false,
    fromJoin := some (.single "test" tblT),
    fields := [.wildcard ""],
    whereCond := none,
    orderBy := [], limitCl := none, forUpdate := false }

/-- Test fixture: the range list of `(2, 3]`. -/
def exGt2Le3 : List RangePoint :=
  [⟨.int 2, true, true⟩, ⟨.int 3, false, false⟩]

/-- Test fixture: the range list of `[1, 2]`. -/
def exGe1Le2 : List RangePoint :=
  [⟨.int 1, false, true⟩, ⟨.int 2, false, false⟩]

/-- Even-length lists alternating start/end points (well-formed interval
lists). -/
inductive AltPairs : List RangePoint → Prop where
  | nil : AltPairs []
  | cons : ∀ s e rest, s.start = true → e.start = false → AltPairs rest →
      AltPairs (s :: e :: rest)

/-- Adjacent points already in the sorter's order, with no comparison
error: the later point is not `Less` than the earlier one. -/
def ChainSorted (pts : List RangePoint) : Prop :=
  List.Chain' (fun p q => lessE q p = (false, false)) pts

/-- Consecutive point pairs of a range-point list (spec view). -/
def pairsOf : List RangePoint → List (RangePoint × RangePoint)
  | s :: e :: rest => (s, e) :: pairsOf rest
  | _ => []

/-- Extending an index range with one further-column point pair
(spec view of `appendIndexRange`). -/
def extendIR (r : IndexRange) (p : RangePoint × RangePoint) : IndexRange :=
  ⟨r.lowVal ++ [p.1.value], p.1.excl, r.highVal ++ [p.2.value], p.2.excl⟩

/-- The spec's statement of `AppendIndexRanges` (claim C10): every
non-point range passes through unchanged in place, every point range is
replaced by one extended range per point pair. -/
def specAppendIndexRanges (origin : List IndexRange)
    (pts : List RangePoint) : List IndexRange :=
  origin.foldr
    (fun r acc =>
      (if isPointIR r then (pairsOf pts).map (extendIR r) else [r]) ++ acc) []

/-- Does the point's cut position sit strictly after its value (an
exclusive start opens just after the value; an inclusive end closes just
after it)? -/
def afterCut (p : RangePoint) : Bool :=
  if p.start then p.excl else !p.excl

/-- Is the point's cut position at or before the position of value `v`
(i.e. before the closed-start position of `v`)? -/
def cutLeVB (p : RangePoint) (v : Value) : Bool :=
  match valCmp p.value v with
  | .lt => true
  | .eq => !(afterCut p)
  | .gt => false

/-- Order of two cut positions. -/
def CutLe (p q : RangePoint) : Prop :=
  valCmp p.value q.value = .lt
  ∨ (valCmp p.value q.value = .eq ∧ (afterCut p = true → afterCut q = true))

/-- Net number of intervals of `pts` open at the position of `v`:
starts at or before `v` count +1, ends at or before `v` count −1. -/
def depthAt (pts : List RangePoint) (v : Value) : Int :=
  (pts.map (fun p =>
    if cutLeVB p v then (if p.start then (1 : Int) else -1) else 0)).sum

/-- Membership of `v` in the intervals of an emission list, threading the
sweep phase: an open phase covers everything up to the next end point. -/
def memPh : Bool → List RangePoint → Value → Bool
  | true, [], _ => true
  | false, [], _ => false
  | true, e :: rest, v => if cutLeVB e v then memPh false rest v else true
  | false, s :: rest, v => if cutLeVB s v then memPh true rest v else false

/-- Values from the integer fragment (NULL, the sentinels, integers). -/
def intOnlyV : Value → Bool
  | .null => true
  | .minNotNull => true
  | .maxVal => true
  | .int _ => true
  | _ => false

/-- Possible column data in the integer fragment: NULL or an integer. -/
def colV : Value → Bool
  | .null => true
  | .int _ => true
  | _ => false

/-- The comparison opcodes of the range builder's switch. -/
def isCmpOp : Op → Bool
  | .eq | .ne | .lt | .le | .gt | .ge => true
  | _ => false

/-- The expression fragment of the amended claim C1: comparisons between
the column and a non-NULL integer literal (either side), AND, OR,
parentheses, `IN` over strictly increasing non-NULL integer lists,
`[NOT] BETWEEN` with ordered integer bounds, `IS [NOT] NULL`,
`IS [NOT] TRUE/FALSE`, and the bare column. -/
inductive Frag : Expr → Prop where
  | cmpVC : ∀ (op : Op) (name : String) (n : Int), isCmpOp op = true →
      Frag (.binop op (.col name) (.value (.int n)))
  | cmpCV : ∀ (op : Op) (name : String) (n : Int), isCmpOp op = true →
      Frag (.binop op (.value (.int n)) (.col name))
  | andF : ∀ l r, Frag l → Frag r → Frag (.binop .andand l r)
  | orF : ∀ l r, Frag l → Frag r → Frag (.binop .oror l r)
  | inF : ∀ (name : String) (vals : List Int), List.Chain' (fun a b => a < b) vals →
      Frag (.inE false (.col name) (vals.map (fun n => .value (.int n))))
  | betweenF : ∀ (isNot : Bool) (name : String) (lo hi : Int), lo ≤ hi →
      Frag (.betweenE isNot (.col name) (.value (.int lo)) (.value (.int hi)))
  | isNullF : ∀ (isNot : Bool) (name : String),
      Frag (.isNullE isNot (.col name))
  | isTruthF : ∀ (isNot tru : Bool) (name : String),
      Frag (.isTruthE isNot tru (.col name))
  | colF : ∀ name, Frag (.col name)
  | parenF : ∀ x, Frag x → Frag (.paren x)

/-- The range list at the leaf of a linear chain, when the leaf is an
`IndexScan`. -/
def leafRanges : Plan → Option (List IndexRange)
  | .indexScan _ _ rs _ => some rs
  | .filter _ s => leafRanges s
  | .selectLock _ s => leafRanges s
  | .selectFields _ s => leafRanges s
  | .sortP _ s => leafRanges s
  | .limit _ _ s => leafRanges s
  | _ => none

/-- Rank of a value as an integer (for order reasoning). -/
def keyR (v : Value) : Int := (valRank v : Int)

/-- The integer payload of a value (0 for non-integers). -/
def keyI : Value → Int
  | .int n => n
  | _ => 0

/-- Net start/end balance of a point list. -/
def netCount (pts : List RangePoint) : Int :=
  (pts.map (fun p => if p.start then (1 : Int) else -1)).sum

/-- The emission shape of the sweep: tracks the phase (open/closed) on
entry and on exit; emitted points strictly alternate start/end according
to the phase. -/
inductive Shape : Bool → Bool → List RangePoint → Prop where
  | nil : ∀ ph, Shape ph ph []
  | start : ∀ ph2 s rest, s.start = true → Shape true ph2 rest →
      Shape false ph2 (s :: rest)
  | stop : ∀ ph2 e rest, e.start = false → Shape false ph2 rest →
      Shape true ph2 (e :: rest)

/-- Well-formed interval lists over the integer fragment: alternating
start/end pairs, pairwise in cut order, all values from the integer
domain. -/
def WFpts (pts : List RangePoint) : Prop :=
  AltPairs pts ∧ List.Pairwise CutLe pts ∧ ∀ p ∈ pts, intOnlyV p.value = true

/-- The point list `buildFromIn` assembles for an integer `IN` list
(before sorting): a closed start/end pair per value, in list order. -/
def inPts (vals : List Int) : List RangePoint :=
  vals.foldr (fun n acc => ⟨.int n, false, true⟩ :: ⟨.int n, false, false⟩ :: acc) []

/-- C4: the range builder's LIKE prefix loop terminates the prefix at a
dot (`.`), not at the SQL single-character wildcard `_`; on the pattern
`abc_` it therefore keeps `_` as a literal byte and returns the
INCLUSIVE interval `[ "abc_", next("abc_") )` instead of the exclusive
prefix interval `( "abc", "abd" )` required by the claim (and by the
repository's own test `TestRangeBuilder`). -/
theorem c4_like_underscore_literal :
    build (.likeE false (.col "a") (.value (.str (strBytes "abc_"))))
      = some [⟨.str (strBytes "abc_"), false, true⟩,
              ⟨.str (strBytes "abc`"), true, false⟩]
    ∧ (some [⟨.str (strBytes "abc_"), false, true⟩,
             ⟨.str (strBytes "abc`"), true, false⟩] : Option (List RangePoint))
      ≠ some [⟨.str (strBytes "abc"), true, true⟩,
              ⟨.str (strBytes "abd"), true, false⟩] := by
  constructor
  · rfl
  · decide

/-- C6: on `a BETWEEN 2 AND 1` (swapped bounds) `buildFromBetween` emits
the two endpoints verbatim, producing a descending, non-canonical list
(the end point at 1 sorts strictly before the start point at 2), where
the repository's own test expects the canonical empty list. -/
theorem c6_between_swapped_not_canonical :
    build (.betweenE false (.col "a") (.value (.int 2)) (.value (.int 1)))
      = some [⟨.int 2, false, true⟩, ⟨.int 1, false, false⟩]
    ∧ rangePointLess ⟨.int 1, false, false⟩ ⟨.int 2, false, true⟩ = true
    ∧ rangePointLess ⟨.int 2, false, true⟩ ⟨.int 1, false, false⟩ = false := by
  exact ⟨rfl, rfl, rfl⟩

/-- C5 counterexample: a binary operation whose operator is none of
AND/OR/comparison (here `+`) makes `buildFromBinop` fall through every
`switch` case and return `nil` — the empty list — not the universal
range the claim requires. -/
theorem c5_counterexample :
    build (.binop .plus (.col "a") (.value (.int 1))) = some []
    ∧ some ([] : List RangePoint) ≠ some fullRange := by
  exact ⟨rfl, by decide⟩

/-- C5 amended: expression NODE KINDS outside the builder's `switch`
(value, row, subquery, aggregate, parameter-marker nodes) do return the
universal range, but a binary operation with an operator other than
AND/OR/`=`/`!=`/`<`/`<=`/`>`/`>=` returns the empty (`nil`) list. -/
theorem c5_amended :
    (∀ v, build (.value v) = some fullRange)
    ∧ (∀ items, build (.row items) = some fullRange)
    ∧ (∀ n, build (.subq n) = some fullRange)
    ∧ build .aggregate = some fullRange
    ∧ build .paramMarker = some fullRange
    ∧ (∀ l r, build (.binop .plus l r) = some [])
    ∧ (∀ l r, build (.binop .nulleq l r) = some []) := by
  refine ⟨fun v => rfl, fun items => rfl, fun n => rfl, rfl, rfl, ?_, ?_⟩
  · intro l r
    show some (buildFromBinopCmp .plus l r) = some []
    unfold buildFromBinopCmp
    cases hl : isValueExpr l <;> simp [hl, flipOp]
  · intro l r
    show some (buildFromBinopCmp .nulleq l r) = some []
    unfold buildFromBinopCmp
    cases hl : isValueExpr l <;> simp [hl, flipOp]

/-- C5 amended, witness. -/
theorem c5_amended_witness :
    build (.value .null) = some fullRange
    ∧ build (.binop .plus (.col "a") (.value (.int 1))) = some [] := by
  exact ⟨c5_amended.1 .null, c5_amended.2.2.2.2.2.1 (.col "a") (.value (.int 1))⟩

/-- C3: the support checker has no case for `PatternInExpr`, so a SELECT
whose WHERE clause is `a NOT IN (1)` passes `Supported`; the range
builder then hits the `NOT IN` panic branch (modelled as `none`), and
`Optimize` reaches that panic through the refiner. -/
theorem c3_not_in_passes_support_checker :
    Supported (.sel stmtNotIn) = true
    ∧ stmtNotIn.whereCond = some (.inE true (.col "a") [.value (.int 1)])
    ∧ build (.inE true (.col "a") [.value (.int 1)]) = none
    ∧ Optimize ⟨[("test", "t")]⟩ stmtNotIn = .error .internalPanic := by
  exact ⟨rfl, rfl, rfl, rfl⟩

/-- C8 counterexample: an exclusive start point and an inclusive end
point with the same value each compare `Less` than the other, so the
comparison is not a (strict) total order. -/
theorem c8_counterexample :
    rangePointLess ⟨.int 1, true, true⟩ ⟨.int 1, false, false⟩ = true
    ∧ rangePointLess ⟨.int 1, false, false⟩ ⟨.int 1, true, true⟩ = true := by
  exact ⟨rfl, rfl⟩

/-- C7 counterexample: merging the well-formed canonical lists `(2, 3]`
and `[1, 2]` under union yields `[1,2] (2,3]` — whose two middle points
are mutually `Less`, so the output is not sorted — and re-merging that
output with the empty list coalesces it to `[1, 3]`, so the output is
not a fixed point of `Merge(·, ∅, union)`. -/
theorem c7_counterexample :
    mergeRP exGt2Le3 exGe1Le2 true
      = [⟨.int 1, false, true⟩, ⟨.int 2, false, false⟩,
         ⟨.int 2, true, true⟩, ⟨.int 3, false, false⟩]
    ∧ mergeRP (mergeRP exGt2Le3 exGe1Le2 true) [] true
      = [⟨.int 1, false, true⟩, ⟨.int 3, false, false⟩]
    ∧ mergeRP (mergeRP exGt2Le3 exGe1Le2 true) [] true
      ≠ mergeRP exGt2Le3 exGe1Le2 true
    ∧ rangePointLess ⟨.int 2, true, true⟩ ⟨.int 2, false, false⟩ = true := by
  refine ⟨rfl, rfl, by decide, rfl⟩

theorem foldlIns_of_chain (pts : List RangePoint) :
    ∀ y accRest, List.Chain' (fun p q => lessE q p = (false, false)) (y :: pts) →
      pts.foldl (fun acc x =>
        let r := insGo x acc.1
        (r.1, acc.2 || r.2)) (y :: accRest, false)
      = (pts.reverse ++ y :: accRest, false) := by
  induction pts with
  | nil => intro y accRest _; rfl
  | cons x rest ih =>
    intro y accRest hch
    have hxy : lessE x y = (false, false) := (List.chain'_cons.mp hch).1
    have hstep : insGo x (y :: accRest) = (x :: y :: accRest, false) := by
      simp [insGo, hxy]
    have htail : List.Chain' (fun p q => lessE q p = (false, false)) (x :: rest) :=
      (List.chain'_cons.mp hch).2
    calc (x :: rest).foldl (fun acc x =>
            let r := insGo x acc.1
            (r.1, acc.2 || r.2)) (y :: accRest, false)
        = rest.foldl (fun acc x =>
            let r := insGo x acc.1
            (r.1, acc.2 || r.2)) (x :: y :: accRest, false) := by
          simp [List.foldl_cons, hstep]
      _ = (rest.reverse ++ x :: y :: accRest, false) := ih x (y :: accRest) htail
      _ = ((x :: rest).reverse ++ y :: accRest, false) := by simp

theorem sortGo_of_chainSorted (pts : List RangePoint) (h : ChainSorted pts) :
    sortGo pts = (pts, false) := by
  cases pts with
  | nil => rfl
  | cons y rest =>
    have : sortGoRev (y :: rest) = (rest.reverse ++ [y], false) := by
      unfold sortGoRev
      have h0 : insGo y ([] : List RangePoint) = ([y], false) := rfl
      calc (y :: rest).foldl (fun acc x =>
              let r := insGo x acc.1
              (r.1, acc.2 || r.2)) ([], false)
          = rest.foldl (fun acc x =>
              let r := insGo x acc.1
              (r.1, acc.2 || r.2)) ([y], false) := by
            simp [List.foldl_cons, h0]
        _ = (rest.reverse ++ [y], false) := foldlIns_of_chain rest y [] h
    unfold sortGo
    rw [this]
    simp

theorem sweepGo_altPairs (pts : List RangePoint) (h : AltPairs pts) :
    sweepGo 1 pts 0 = pts := by
  induction h with
  | nil => rfl
  | cons s e rest hs he _ ih =>
    simp [sweepGo, hs, he, ih]

/-- C7 amended: the sorter's output is only canonical when it is already
in order — every even-length start/end-alternating point list whose
adjacent points are in the sorter's order (and comparable) IS a fixed
point of `Merge(·, ∅, union)`; the unrestricted claim fails, because on
`(2,3]` and `[1,2]` the merge output is out of order and re-merging it
with `∅` coalesces it (see the counterexample). -/
theorem c7_amended (pts : List RangePoint) (h1 : AltPairs pts)
    (h2 : ChainSorted pts) :
    mergeRP pts [] true = pts := by
  unfold mergeRP
  rw [List.append_nil, sortGo_of_chainSorted pts h2]
  simpa using sweepGo_altPairs pts h1

/-- C7 amended, witness. -/
theorem c7_amended_witness :
    mergeRP [⟨.int 1, false, true⟩, ⟨.int 2, false, false⟩] [] true
      = [⟨.int 1, false, true⟩, ⟨.int 2, false, false⟩] :=
  c7_amended _ (AltPairs.cons _ _ _ rfl rfl AltPairs.nil) (List.chain'_pair.mpr rfl)

theorem natCmp_self (a : Nat) : natCmp a a = .eq := by simp [natCmp]

theorem intCmp_self (a : Int) : intCmp a a = .eq := by simp [intCmp]

theorem lexCmpBytes_self (s : List Nat) : lexCmpBytes s s = .eq := by
  induction s with
  | nil => rfl
  | cons a rest ih => simp [lexCmpBytes, natCmp_self, ih]

theorem lessE_same_value (v : Value) (hv : ∀ b, v ≠ .boolv b)
    (ea sa eb sb : Bool) :
    lessE ⟨v, ea, sa⟩ ⟨v, eb, sb⟩
      = (equalValueLess ⟨v, ea, sa⟩ ⟨v, eb, sb⟩, false) := by
  cases v with
  | null => simp [lessE]
  | minNotNull => simp [lessE]
  | maxVal => simp [lessE]
  | int n => simp [lessE, compareConcrete, intCmp_self]
  | str s => simp [lessE, compareConcrete, lexCmpBytes_self]
  | boolv b => exact absurd rfl (hv b)

theorem lessE_null_lt (v : Value) (hv : v ≠ .null) (ea sa eb sb : Bool) :
    lessE ⟨.null, ea, sa⟩ ⟨v, eb, sb⟩ = (true, false)
    ∧ lessE ⟨v, eb, sb⟩ ⟨.null, ea, sa⟩ = (false, false) := by
  constructor <;> simp [lessE, hv]

theorem lessE_min_lt (v : Value) (hv1 : v ≠ .null) (hv2 : v ≠ .minNotNull)
    (ea sa eb sb : Bool) :
    lessE ⟨.minNotNull, ea, sa⟩ ⟨v, eb, sb⟩ = (true, false)
    ∧ lessE ⟨v, eb, sb⟩ ⟨.minNotNull, ea, sa⟩ = (false, false) := by
  constructor <;> simp [lessE, hv1, hv2]

theorem lessE_lt_max (v : Value) (hv1 : v ≠ .null) (hv2 : v ≠ .minNotNull)
    (hv3 : v ≠ .maxVal) (ea sa eb sb : Bool) :
    lessE ⟨v, ea, sa⟩ ⟨.maxVal, eb, sb⟩ = (true, false)
    ∧ lessE ⟨.maxVal, eb, sb⟩ ⟨v, ea, sa⟩ = (false, false) := by
  constructor <;> simp [lessE, hv1, hv2, hv3]

/-- C8 amended: the comparison satisfies every ordering clause of the
claim — NULL before MinNotNull, MinNotNull before every concrete value,
every concrete value before MaxVal, closed start before open start at
the same value, open end before closed end, and an end before a
subsequent start when either is exclusive — but it is NOT a total order:
the counterexample shows an exclusive start and an inclusive end at the
same value each compare less than the other. -/
theorem c8_amended :
    (∀ ea sa eb sb : Bool,
      rangePointLess ⟨.null, ea, sa⟩ ⟨.minNotNull, eb, sb⟩ = true
      ∧ rangePointLess ⟨.minNotNull, eb, sb⟩ ⟨.null, ea, sa⟩ = false)
    ∧ (∀ (v : Value), v ≠ .null → v ≠ .minNotNull → ∀ ea sa eb sb : Bool,
      rangePointLess ⟨.minNotNull, ea, sa⟩ ⟨v, eb, sb⟩ = true
      ∧ rangePointLess ⟨v, eb, sb⟩ ⟨.minNotNull, ea, sa⟩ = false)
    ∧ (∀ (v : Value), v ≠ .null → v ≠ .minNotNull → v ≠ .maxVal →
      ∀ ea sa eb sb : Bool,
      rangePointLess ⟨v, ea, sa⟩ ⟨.maxVal, eb, sb⟩ = true
      ∧ rangePointLess ⟨.maxVal, eb, sb⟩ ⟨v, ea, sa⟩ = false)
    ∧ (∀ (v : Value), (∀ b, v ≠ .boolv b) →
      rangePointLess ⟨v, false, true⟩ ⟨v, true, true⟩ = true
      ∧ rangePointLess ⟨v, true, true⟩ ⟨v, false, true⟩ = false)
    ∧ (∀ (v : Value), (∀ b, v ≠ .boolv b) →
      rangePointLess ⟨v, true, false⟩ ⟨v, false, false⟩ = true
      ∧ rangePointLess ⟨v, false, false⟩ ⟨v, true, false⟩ = false)
    ∧ (∀ (v : Value), (∀ b, v ≠ .boolv b) → ∀ e1 e2 : Bool,
      (e1 || e2) = true →
      rangePointLess ⟨v, e1, false⟩ ⟨v, e2, true⟩ = true) := by
  refine ⟨?_, ?_, ?_, ?_, ?_, ?_⟩
  · intro ea sa eb sb
    exact ⟨congrArg Prod.fst (lessE_null_lt .minNotNull (by simp) ea sa eb sb).1,
           congrArg Prod.fst (lessE_null_lt .minNotNull (by simp) ea sa eb sb).2⟩
  · intro v h1 h2 ea sa eb sb
    exact ⟨congrArg Prod.fst (lessE_min_lt v h1 h2 ea sa eb sb).1,
           congrArg Prod.fst (lessE_min_lt v h1 h2 ea sa eb sb).2⟩
  · intro v h1 h2 h3 ea sa eb sb
    exact ⟨congrArg Prod.fst (lessE_lt_max v h1 h2 h3 ea sa eb sb).1,
           congrArg Prod.fst (lessE_lt_max v h1 h2 h3 ea sa eb sb).2⟩
  · intro v hv
    constructor
    · show (lessE ⟨v, false, true⟩ ⟨v, true, true⟩).1 = true
      rw [lessE_same_value v hv]
      simp [equalValueLess]
    · show (lessE ⟨v, true, true⟩ ⟨v, false, true⟩).1 = false
      rw [lessE_same_value v hv]
      simp [equalValueLess]
  · intro v hv
    constructor
    · show (lessE ⟨v, true, false⟩ ⟨v, false, false⟩).1 = true
      rw [lessE_same_value v hv]
      simp [equalValueLess]
    · show (lessE ⟨v, false, false⟩ ⟨v, true, false⟩).1 = false
      rw [lessE_same_value v hv]
      simp [equalValueLess]
  · intro v hv e1 e2 he
    show (lessE ⟨v, e1, false⟩ ⟨v, e2, true⟩).1 = true
    rw [lessE_same_value v hv]
    simp [equalValueLess]
    revert he
    cases e1 <;> cases e2 <;> simp

/-- C8 amended, witness. -/
theorem c8_amended_witness :
    rangePointLess ⟨.minNotNull, false, true⟩ ⟨.int 7, false, false⟩ = true
    ∧ rangePointLess ⟨.int 7, true, false⟩ ⟨.int 7, false, false⟩ = true := by
  exact ⟨(c8_amended.2.1 (.int 7) (by simp) (by simp) false true false false).1,
         (c8_amended.2.2.2.2.1 (.int 7) (by simp)).1⟩

theorem optimizeLoop_min (alts : List Plan) :
    ∀ best, EstimateCost (optimizeLoop best (EstimateCost best) alts) ≤ EstimateCost best
      ∧ (∀ a ∈ alts, EstimateCost (optimizeLoop best (EstimateCost best) alts) ≤ EstimateCost a)
      ∧ optimizeLoop best (EstimateCost best) alts ∈ best :: alts := by
  induction alts with
  | nil => intro best; refine ⟨le_refl _, by simp, by simp [optimizeLoop]⟩
  | cons alt rest ih =>
    intro best
    by_cases h : EstimateCost alt < EstimateCost best
    · have heq : optimizeLoop best (EstimateCost best) (alt :: rest)
          = optimizeLoop alt (EstimateCost alt) rest := by
        simp [optimizeLoop, h]
      obtain ⟨ih1, ih2, ih3⟩ := ih alt
      refine ⟨?_, ?_, ?_⟩
      · rw [heq]; exact le_trans ih1 (le_of_lt h)
      · intro a ha
        rw [heq]
        rcases List.mem_cons.mp ha with rfl | ha2
        · exact ih1
        · exact ih2 a ha2
      · rw [heq]
        rcases List.mem_cons.mp ih3 with h3 | h3
        · simp [h3]
        · simp [List.mem_cons.mpr (Or.inr h3)]
    · have heq : optimizeLoop best (EstimateCost best) (alt :: rest)
          = optimizeLoop best (EstimateCost best) rest := by
        simp [optimizeLoop, h]
      obtain ⟨ih1, ih2, ih3⟩ := ih best
      refine ⟨?_, ?_, ?_⟩
      · rw [heq]; exact ih1
      · intro a ha
        rw [heq]
        rcases List.mem_cons.mp ha with rfl | ha2
        · exact le_trans ih1 (not_lt.mp h)
        · exact ih2 a ha2
      · rw [heq]
        rcases List.mem_cons.mp ih3 with h3 | h3
        · simp [h3]
        · simp [List.mem_cons.mpr (Or.inr h3)]

/-- C2 counterexample: `SELECT * FROM test.t` passes the validator and
the support checker, yet against a catalog with no table `t` the binding
step fails, so `Optimize` returns an error and no plan. -/
theorem c2_counterexample :
    validate (.sel stmtPlain) = none
    ∧ Supported (.sel stmtPlain) = true
    ∧ Optimize ⟨[]⟩ stmtPlain = .error (.badTable "t") := by
  exact ⟨rfl, rfl, rfl⟩

/-- C2 amended: when, in addition to the validator and the support
checker, the binding step and the refine/alternatives steps succeed,
`Optimize` returns (with nil error) one of the refined original plan and
the refined alternatives, and its estimated cost is at most the cost of
the refined original plan and of every refined alternative. -/
theorem c2_amended (is2 : InfoSchema) (s : SelectStmt)
    (alts : List Plan) (p2 : Plan) (rAlts : List Plan)
    (hsup : Supported (.sel s) = true)
    (hval : validate (.sel s) = none)
    (hbind : bindInfo is2 s = none)
    (halts : alternativesRaw (buildPlan s) = some alts)
    (hp2 : refine (buildPlan s) = some p2)
    (hra : alts.mapM refine = some rAlts) :
    Optimize is2 s = .ok (optimizeLoop p2 (EstimateCost p2) rAlts)
    ∧ optimizeLoop p2 (EstimateCost p2) rAlts ∈ p2 :: rAlts
    ∧ EstimateCost (optimizeLoop p2 (EstimateCost p2) rAlts) ≤ EstimateCost p2
    ∧ (∀ a ∈ rAlts,
        EstimateCost (optimizeLoop p2 (EstimateCost p2) rAlts) ≤ EstimateCost a) := by
  obtain ⟨h1, h2, h3⟩ := optimizeLoop_min rAlts p2
  refine ⟨?_, h3, h1, h2⟩
  have hra2 : List.mapM.loop refine alts [] = some rAlts := by
    simpa [List.mapM] using hra
  simp [Optimize, hval, hbind, computeType, rewriteStatic, halts, hp2, hra2, orPanic,
    Except.bind, Bind.bind, Functor.map, Except.map, Pure.pure, Except.pure]

/-- C2 amended, witness. -/
theorem c2_amended_witness :
    Optimize ⟨[("test", "t")]⟩ stmtPlain
      = .ok (optimizeLoop (buildPlan stmtPlain)
          (EstimateCost (buildPlan stmtPlain))
          [.selectFields stmtPlain.fields
            (.indexScan ⟨"a", ["a"]⟩ tblT
              [⟨[.null], false, [.maxVal], false⟩] stmtPlain.fields)]) := by
  have h := c2_amended ⟨[("test", "t")]⟩ stmtPlain
    [.selectFields stmtPlain.fields
      (.indexScan ⟨"a", ["a"]⟩ tblT
        [⟨[.null], false, [.maxVal], false⟩] stmtPlain.fields)]
    (buildPlan stmtPlain)
    [.selectFields stmtPlain.fields
      (.indexScan ⟨"a", ["a"]⟩ tblT
        [⟨[.null], false, [.maxVal], false⟩] stmtPlain.fields)]
    rfl rfl rfl rfl rfl rfl
  exact h.1

theorem appendIndexRange_even (origin : IndexRange) :
    ∀ pts : List RangePoint, pts.length % 2 = 0 →
      appendIndexRange origin pts = some ((pairsOf pts).map (extendIR origin)) := by
  intro pts
  induction pts using pairsOf.induct with
  | case1 s e rest ih =>
    intro h
    have hr : rest.length % 2 = 0 := by
      simp [List.length_cons] at h
      omega
    simp [appendIndexRange, pairsOf, ih hr, extendIR]
  | case2 pts h2 =>
    intro h
    cases pts with
    | nil => rfl
    | cons a tail =>
      cases tail with
      | nil => simp at h
      | cons b t2 => exact absurd rfl (h2 a b t2)

/-- C10: `appendIndexRanges` leaves every non-point range unchanged in
place and replaces every point range by one extended range per point
pair of the (even-length) new-column list, each appending the pair's
start value, end value and exclusivity flags to the original bounds —
stated as equality with the spec-shaped transformation. -/
theorem c10_appendIndexRanges_spec (origin : List IndexRange)
    (pts : List RangePoint) (h : pts.length % 2 = 0) :
    appendIndexRanges origin pts = some (specAppendIndexRanges origin pts) := by
  induction origin with
  | nil => rfl
  | cons r rest ih =>
    by_cases hp : isPointIR r
    · simp [appendIndexRanges, hp, appendIndexRange_even r pts h, ih,
        specAppendIndexRanges, List.foldr_cons]
    · simp [appendIndexRanges, hp, ih, specAppendIndexRanges, List.foldr_cons]

/-- C10 witness. -/
theorem c10_appendIndexRanges_spec_witness :
    appendIndexRanges
      [⟨[.int 1], false, [.int 1], false⟩, ⟨[.int 1], false, [.int 2], false⟩]
      [⟨.int 5, false, true⟩, ⟨.int 5, false, false⟩,
       ⟨.int 7, true, true⟩, ⟨.int 8, true, false⟩]
      = some (specAppendIndexRanges
          [⟨[.int 1], false, [.int 1], false⟩, ⟨[.int 1], false, [.int 2], false⟩]
          [⟨.int 5, false, true⟩, ⟨.int 5, false, false⟩,
           ⟨.int 7, true, true⟩, ⟨.int 8, true, false⟩]) :=
  c10_appendIndexRanges_spec _ _ (by decide)

theorem refine_filter_other (conds : List Expr) (src : Plan)
    (hn : ∀ idx t r0 fs, src ≠ Plan.indexScan idx t r0 fs) :
    refine (.filter conds src) = (refine src).map (fun s => .filter conds s) := by
  cases src with
  | indexScan idx t r0 fs => exact absurd rfl (hn idx t r0 fs)
  | nilPlan => rfl
  | tableScan t f => rfl
  | filter a b => rfl
  | selectLock a b => rfl
  | selectFields a b => rfl
  | sortP a b => rfl
  | limit a b c => rfl

theorem refine_leafSig : ∀ p q, refine p = some q →
    leafTable q = leafTable p ∧ leafIndexName q = leafIndexName p := by
  intro p
  induction p with
  | nilPlan => intro q h; cases h; exact ⟨rfl, rfl⟩
  | tableScan t f => intro q h; cases h; exact ⟨rfl, rfl⟩
  | indexScan idx t r0 fs => intro q h; cases h; exact ⟨rfl, rfl⟩
  | filter conds src ih =>
    intro q h
    by_cases hscan : ∃ idx t r0 fs, src = Plan.indexScan idx t r0 fs
    · obtain ⟨idx, t, r0, fs, rfl⟩ := hscan
      cases hcols : idx.columns with
      | nil =>
        rw [refine, hcols] at h
        cases h
        exact ⟨rfl, rfl⟩
      | cons c1 cols =>
        rw [refine, hcols] at h
        dsimp only at h
        by_cases hm : ((conds.flatMap splitCNF).filter
            (fun e => refCol e == some c1)).isEmpty
        · rw [if_pos hm] at h
          cases h
          exact ⟨rfl, rfl⟩
        · rw [if_neg hm] at h
          simp only [Bind.bind, Option.bind_eq_some] at h
          obtain ⟨pts, _, h⟩ := h
          obtain ⟨r1, _, h⟩ := h
          obtain ⟨res, _, h⟩ := h
          by_cases hres : res.2.isEmpty
          · rw [if_pos hres] at h
            cases h
            exact ⟨rfl, rfl⟩
          · rw [if_neg hres] at h
            cases h
            exact ⟨rfl, rfl⟩
    · push_neg at hscan
      rw [refine_filter_other conds src hscan] at h
      simp only [Option.map_eq_some'] at h
      obtain ⟨s2, hs2, rfl⟩ := h
      have := ih s2 hs2
      simpa [leafTable, leafIndexName] using this
  | selectLock b src ih =>
    intro q h
    rw [refine] at h
    simp only [Option.map_eq_some'] at h
    obtain ⟨s2, hs2, rfl⟩ := h
    have := ih s2 hs2
    simpa [leafTable, leafIndexName] using this
  | selectFields fs src ih =>
    intro q h
    rw [refine] at h
    simp only [Option.map_eq_some'] at h
    obtain ⟨s2, hs2, rfl⟩ := h
    have := ih s2 hs2
    simpa [leafTable, leafIndexName] using this
  | sortP bys src ih =>
    intro q h
    rw [refine] at h
    simp only [Option.map_eq_some'] at h
    obtain ⟨s2, hs2, rfl⟩ := h
    have := ih s2 hs2
    simpa [leafTable, leafIndexName] using this
  | limit o c src ih =>
    intro q h
    rw [refine] at h
    simp only [Option.map_eq_some'] at h
    obtain ⟨s2, hs2, rfl⟩ := h
    have := ih s2 hs2
    simpa [leafTable, leafIndexName] using this

theorem alternativesRaw_spec : ∀ (p : Plan) (t : TableInfo),
    leafTable p = some t →
    ∃ alts, alternativesRaw p = some alts
      ∧ alts.map leafIndexName = t.indices.map (fun i => (some i.name : Option String))
      ∧ (∀ a ∈ alts, leafTable a = none)
      ∧ (∀ a ∈ alts, leafRanges a = some [⟨[.null], false, [.maxVal], false⟩]) := by
  intro p
  induction p with
  | nilPlan => intro t ht; cases ht
  | indexScan idx tb r0 fs => intro t ht; cases ht
  | tableScan tb fs =>
    intro t ht
    rw [leafTable] at ht
    cases ht
    refine ⟨tableScanAlternatives tb fs, rfl, ?_, ?_, ?_⟩
    · simp [tableScanAlternatives, List.map_map, leafIndexName, Function.comp]
    · intro a ha
      simp [tableScanAlternatives] at ha
      obtain ⟨i, _, rfl⟩ := ha
      rfl
    · intro a ha
      simp [tableScanAlternatives] at ha
      obtain ⟨i, _, rfl⟩ := ha
      rfl
  | filter conds src ih =>
    intro t ht
    obtain ⟨alts, h1, h2, h3, h4⟩ := ih t ht
    refine ⟨alts.map (fun s => .filter conds s), by simp [alternativesRaw, h1], ?_, ?_, ?_⟩
    · simpa [List.map_map, leafIndexName, Function.comp] using h2
    · intro a ha
      simp at ha
      obtain ⟨b, hb, rfl⟩ := ha
      simpa [leafTable] using h3 b hb
    · intro a ha
      simp at ha
      obtain ⟨b, hb, rfl⟩ := ha
      simpa [leafRanges] using h4 b hb
  | selectLock b0 src ih =>
    intro t ht
    obtain ⟨alts, h1, h2, h3, h4⟩ := ih t ht
    refine ⟨alts.map (fun s => .selectLock b0 s), by simp [alternativesRaw, h1], ?_, ?_, ?_⟩
    · simpa [List.map_map, leafIndexName, Function.comp] using h2
    · intro a ha
      simp at ha
      obtain ⟨b, hb, rfl⟩ := ha
      simpa [leafTable] using h3 b hb
    · intro a ha
      simp at ha
      obtain ⟨b, hb, rfl⟩ := ha
      simpa [leafRanges] using h4 b hb
  | selectFields fs src ih =>
    intro t ht
    obtain ⟨alts, h1, h2, h3, h4⟩ := ih t ht
    refine ⟨alts.map (fun s => .selectFields fs s), by simp [alternativesRaw, h1], ?_, ?_, ?_⟩
    · simpa [List.map_map, leafIndexName, Function.comp] using h2
    · intro a ha
      simp at ha
      obtain ⟨b, hb, rfl⟩ := ha
      simpa [leafTable] using h3 b hb
    · intro a ha
      simp at ha
      obtain ⟨b, hb, rfl⟩ := ha
      simpa [leafRanges] using h4 b hb
  | sortP bys src ih =>
    intro t ht
    obtain ⟨alts, h1, h2, h3, h4⟩ := ih t ht
    refine ⟨alts.map (fun s => .sortP bys s), by simp [alternativesRaw, h1], ?_, ?_, ?_⟩
    · simpa [List.map_map, leafIndexName, Function.comp] using h2
    · intro a ha
      simp at ha
      obtain ⟨b, hb, rfl⟩ := ha
      simpa [leafTable] using h3 b hb
    · intro a ha
      simp at ha
      obtain ⟨b, hb, rfl⟩ := ha
      simpa [leafRanges] using h4 b hb
  | limit o c src ih =>
    intro t ht
    obtain ⟨alts, h1, h2, h3, h4⟩ := ih t ht
    refine ⟨alts.map (fun s => .limit o c s), by simp [alternativesRaw, h1], ?_, ?_, ?_⟩
    · simpa [List.map_map, leafIndexName, Function.comp] using h2
    · intro a ha
      simp at ha
      obtain ⟨b, hb, rfl⟩ := ha
      simpa [leafTable] using h3 b hb
    · intro a ha
      simp at ha
      obtain ⟨b, hb, rfl⟩ := ha
      simpa [leafRanges] using h4 b hb

theorem mapM_refine_sig : ∀ (l l2 : List Plan), l.mapM refine = some l2 →
    l2.length = l.length
    ∧ l2.map leafIndexName = l.map leafIndexName
    ∧ l2.map leafTable = l.map leafTable := by
  intro l
  induction l with
  | nil =>
    intro l2 h
    simp only [List.mapM, List.mapM.loop] at h
    cases h
    exact ⟨rfl, rfl, rfl⟩
  | cons a rest ih =>
    intro l2 h
    rw [List.mapM_cons] at h
    simp only [Bind.bind, Option.bind_eq_some, Pure.pure] at h
    obtain ⟨b, hb, h⟩ := h
    obtain ⟨bs, hbs, h⟩ := h
    cases h
    obtain ⟨e1, e2, e3⟩ := ih bs hbs
    obtain ⟨f1, f2⟩ := refine_leafSig a b hb
    refine ⟨by simp [e1], ?_, ?_⟩
    · simp [List.map_cons, e2, f2]
    · simp [List.map_cons, e3, f1]

/-- C9: for every linear chain whose leaf is a `TableScan` on table `t`
(and whose refinement succeeds), `Alternatives` returns exactly one plan
per index of `t`, in order — the leaf of the i-th returned plan is an
`IndexScan` on the i-th index — the original plan is not among them, and
every constructed alternative's leaf is initialised with the single
universal range `[nil, MaxVal]` on its first column. -/
theorem c9_alternatives (p : Plan) (t : TableInfo) (alts : List Plan)
    (hleaf : leafTable p = some t) (halts : Alternatives p = some alts) :
    alts.length = t.indices.length
    ∧ alts.map leafIndexName = t.indices.map (fun i => (some i.name : Option String))
    ∧ p ∉ alts
    ∧ (∃ raw, alternativesRaw p = some raw
        ∧ ∀ a ∈ raw, leafRanges a = some [⟨[.null], false, [.maxVal], false⟩]) := by
  obtain ⟨raw, h1, h2, h3, h4⟩ := alternativesRaw_spec p t hleaf
  have hmm : raw.mapM refine = some alts := by
    simpa [Alternatives, h1, Bind.bind] using halts
  obtain ⟨e1, e2, e3⟩ := mapM_refine_sig raw alts hmm
  refine ⟨?_, ?_, ?_, raw, h1, h4⟩
  · rw [e1]
    have := congrArg List.length h2
    simpa using this
  · rw [e2, h2]
  · intro hp
    have hmem : leafTable p ∈ alts.map leafTable := List.mem_map_of_mem _ hp
    rw [e3] at hmem
    obtain ⟨a, ha, hto⟩ := List.mem_map.mp hmem
    rw [h3 a ha, hleaf] at hto
    cases hto

/-- C9 witness. -/
theorem c9_alternatives_witness :
    ([Plan.selectFields stmtPlain.fields
        (.indexScan ⟨"a", ["a"]⟩ tblT
          [⟨[.null], false, [.maxVal], false⟩] stmtPlain.fields)] : List Plan).length
      = tblT.indices.length
    ∧ ([Plan.selectFields stmtPlain.fields
        (.indexScan ⟨"a", ["a"]⟩ tblT
          [⟨[.null], false, [.maxVal], false⟩] stmtPlain.fields)] : List Plan).map leafIndexName
      = tblT.indices.map (fun i => (some i.name : Option String))
    ∧ buildPlan stmtPlain ∉
        ([Plan.selectFields stmtPlain.fields
          (.indexScan ⟨"a", ["a"]⟩ tblT
            [⟨[.null], false, [.maxVal], false⟩] stmtPlain.fields)] : List Plan)
    ∧ (∃ raw, alternativesRaw (buildPlan stmtPlain) = some raw
        ∧ ∀ a ∈ raw, leafRanges a = some [⟨[.null], false, [.maxVal], false⟩]) :=
  c9_alternatives (buildPlan stmtPlain) tblT _ rfl rfl

theorem valCmp_char (a b : Value) (ha : intOnlyV a = true) (hb : intOnlyV b = true) :
    valCmp a b = (if keyR a < keyR b ∨ (keyR a = keyR b ∧ keyI a < keyI b) then .lt
      else if keyR a = keyR b ∧ keyI a = keyI b then .eq else .gt) := by
  cases a <;> cases b <;>
    simp_all [intOnlyV, valCmp, valRank, keyR, keyI, natCmp, intCmp]

theorem cutLeVB_char (p : RangePoint) (v : Value)
    (hp : intOnlyV p.value = true) (hv : intOnlyV v = true) :
    cutLeVB p v = true ↔
      (keyR p.value < keyR v
       ∨ (keyR p.value = keyR v ∧ keyI p.value < keyI v)
       ∨ (keyR p.value = keyR v ∧ keyI p.value = keyI v ∧ afterCut p = false)) := by
  unfold cutLeVB
  rw [valCmp_char p.value v hp hv]
  split_ifs with h1 h2 <;> simp_all <;> omega

theorem CutLe_char (p q : RangePoint)
    (hp : intOnlyV p.value = true) (hq : intOnlyV q.value = true) :
    CutLe p q ↔
      (keyR p.value < keyR q.value
       ∨ (keyR p.value = keyR q.value ∧ keyI p.value < keyI q.value)
       ∨ (keyR p.value = keyR q.value ∧ keyI p.value = keyI q.value
          ∧ (afterCut p = true → afterCut q = true))) := by
  unfold CutLe
  rw [valCmp_char p.value q.value hp hq]
  split_ifs with h1 h2 <;> simp_all <;> omega

theorem cutLe_trans (p q r : RangePoint)
    (hp : intOnlyV p.value = true) (hq : intOnlyV q.value = true)
    (hr : intOnlyV r.value = true) :
    CutLe p q → CutLe q r → CutLe p r := by
  rw [CutLe_char p q hp hq, CutLe_char q r hq hr, CutLe_char p r hp hr]
  intro h1 h2
  rcases h1 with h1 | h1 | ⟨e1, e2, e3⟩ <;>
    rcases h2 with h2 | h2 | ⟨f1, f2, f3⟩
  · exact Or.inl (by omega)
  · exact Or.inl (by omega)
  · exact Or.inl (by omega)
  · exact Or.inl (by omega)
  · exact Or.inr (Or.inl ⟨by omega, by omega⟩)
  · exact Or.inr (Or.inl ⟨by omega, by omega⟩)
  · exact Or.inl (by omega)
  · exact Or.inr (Or.inl ⟨by omega, by omega⟩)
  · exact Or.inr (Or.inr ⟨by omega, by omega, fun h => f3 (e3 h)⟩)

theorem cutLe_transport (p q : RangePoint) (v : Value)
    (hp : intOnlyV p.value = true) (hq : intOnlyV q.value = true)
    (hv : intOnlyV v = true) :
    CutLe p q → cutLeVB q v = true → cutLeVB p v = true := by
  rw [CutLe_char p q hp hq, cutLeVB_char q v hq hv, cutLeVB_char p v hp hv]
  intro h1 h2
  rcases h1 with h1 | h1 | ⟨e1, e2, e3⟩ <;>
    rcases h2 with h2 | h2 | ⟨f1, f2, f3⟩
  · exact Or.inl (by omega)
  · exact Or.inl (by omega)
  · exact Or.inl (by omega)
  · exact Or.inl (by omega)
  · exact Or.inr (Or.inl ⟨by omega, by omega⟩)
  · exact Or.inr (Or.inl ⟨by omega, by omega⟩)
  · exact Or.inl (by omega)
  · exact Or.inr (Or.inl ⟨by omega, by omega⟩)
  · refine Or.inr (Or.inr ⟨by omega, by omega, ?_⟩)
    cases hap : afterCut p
    · rfl
    · rw [e3 hap] at f3
      exact f3

theorem eqLess_afterCut (ea sa eb sb : Bool) :
    ((if sa && sb then !ea && eb
      else if sa then !eb
      else if sb then ea || eb
      else ea && !eb) = true →
      ((if sa then ea else !ea) = true → (if sb then eb else !eb) = true))
    ∧ ((if sa && sb then !ea && eb
        else if sa then !eb
        else if sb then ea || eb
        else ea && !eb) = false →
      ((if sb then eb else !eb) = true → (if sa then ea else !ea) = true)) := by
  cases ea <;> cases sa <;> cases eb <;> cases sb <;> decide


theorem lessE_eq_valCmp (va vb : Value)
    (ha : intOnlyV va = true) (hb : intOnlyV vb = true) (ea sa eb sb : Bool) :
    lessE ⟨va, ea, sa⟩ ⟨vb, eb, sb⟩ =
      (match valCmp va vb with
       | .lt => (true, false)
       | .eq => (equalValueLess ⟨va, ea, sa⟩ ⟨vb, eb, sb⟩, false)
       | .gt => (false, false)) := by
  cases va <;> cases vb <;>
    simp_all [intOnlyV, lessE, compareConcrete, valCmp, natCmp, valRank]
  case int.int na nb =>
    cases h : intCmp na nb <;> simp [lessE, compareConcrete, h, valCmp]

theorem afterCut_mk (v : Value) (e s : Bool) :
    afterCut ⟨v, e, s⟩ = if s then e else !e := rfl

theorem equalValueLess_mk (va vb : Value) (ea sa eb sb : Bool) :
    equalValueLess ⟨va, ea, sa⟩ ⟨vb, eb, sb⟩
      = (if sa && sb then !ea && eb
         else if sa then !eb
         else if sb then ea || eb
         else ea && !eb) := rfl

theorem lessE_noerr (a b : RangePoint)
    (ha : intOnlyV a.value = true) (hb : intOnlyV b.value = true) :
    (lessE a b).2 = false := by
  obtain ⟨va, ea, sa⟩ := a
  obtain ⟨vb, eb, sb⟩ := b
  rw [lessE_eq_valCmp va vb ha hb]
  cases valCmp va vb <;> rfl

theorem lessE_cut (a b : RangePoint)
    (ha : intOnlyV a.value = true) (hb : intOnlyV b.value = true) :
    ((lessE a b).1 = true → CutLe a b) ∧ ((lessE a b).1 = false → CutLe b a) := by
  obtain ⟨va, ea, sa⟩ := a
  obtain ⟨vb, eb, sb⟩ := b
  rw [lessE_eq_valCmp va vb ha hb]
  have hch := valCmp_char va vb ha hb
  cases hv : valCmp va vb with
  | lt =>
    rw [hv] at hch
    constructor
    · intro _
      rw [CutLe_char _ _ ha hb]
      dsimp only
      by_cases h1 : keyR va < keyR vb ∨ (keyR va = keyR vb ∧ keyI va < keyI vb)
      · rcases h1 with h1 | h1
        · exact Or.inl h1
        · exact Or.inr (Or.inl h1)
      · rw [if_neg h1] at hch
        split_ifs at hch <;> simp_all
    · intro h
      simp at h
  | gt =>
    rw [hv] at hch
    constructor
    · intro h
      simp at h
    · intro _
      rw [CutLe_char _ _ hb ha]
      dsimp only
      by_cases h1 : keyR va < keyR vb ∨ (keyR va = keyR vb ∧ keyI va < keyI vb)
      · rw [if_pos h1] at hch
        cases hch
      · by_cases h2 : keyR va = keyR vb ∧ keyI va = keyI vb
        · rw [if_neg h1, if_pos h2] at hch
          cases hch
        · push_neg at h1 h2
          by_cases h3 : keyR vb < keyR va
          · exact Or.inl h3
          · refine Or.inr (Or.inl ⟨by omega, by omega⟩)
  | eq =>
    rw [hv] at hch
    have hkey : keyR va = keyR vb ∧ keyI va = keyI vb := by
      by_cases h1 : keyR va < keyR vb ∨ (keyR va = keyR vb ∧ keyI va < keyI vb)
      · rw [if_pos h1] at hch
        cases hch
      · by_cases h2 : keyR va = keyR vb ∧ keyI va = keyI vb
        · exact h2
        · rw [if_neg h1, if_neg h2] at hch
          cases hch
    have htie := eqLess_afterCut ea sa eb sb
    constructor
    · intro h
      rw [CutLe_char _ _ ha hb]
      dsimp only
      refine Or.inr (Or.inr ⟨hkey.1, hkey.2, ?_⟩)
      rw [equalValueLess_mk] at h
      rw [afterCut_mk, afterCut_mk]
      exact htie.1 h
    · intro h
      rw [CutLe_char _ _ hb ha]
      dsimp only
      refine Or.inr (Or.inr ⟨hkey.1.symm, hkey.2.symm, ?_⟩)
      rw [equalValueLess_mk] at h
      rw [afterCut_mk, afterCut_mk]
      exact htie.2 h

theorem insGo_perm (x : RangePoint) : ∀ l, List.Perm (insGo x l).1 (x :: l) := by
  intro l
  induction l with
  | nil => simp [insGo]
  | cons y ys ih =>
    by_cases h : (lessE x y).1
    · have hstep : insGo x (y :: ys) = (y :: (insGo x ys).1,
          (lessE x y).2 || (insGo x ys).2) := by
        simp [insGo, h]
      rw [hstep]
      exact (ih.cons y).trans (List.Perm.swap x y ys)
    · have hstep : insGo x (y :: ys) = (x :: y :: ys, (lessE x y).2) := by
        simp [insGo, h]
      rw [hstep]

theorem insGo_noerr (x : RangePoint) (hx : intOnlyV x.value = true) :
    ∀ l, (∀ p ∈ l, intOnlyV p.value = true) → (insGo x l).2 = false := by
  intro l
  induction l with
  | nil => simp [insGo]
  | cons y ys ih =>
    intro hm
    have hy : intOnlyV y.value = true := hm y (by simp)
    by_cases h : (lessE x y).1
    · have hstep : insGo x (y :: ys) = (y :: (insGo x ys).1,
          (lessE x y).2 || (insGo x ys).2) := by
        simp [insGo, h]
      rw [hstep]
      simp [lessE_noerr x y hx hy, ih (fun p hp => hm p (by simp [hp]))]
    · have hstep : insGo x (y :: ys) = (x :: y :: ys, (lessE x y).2) := by
        simp [insGo, h]
      rw [hstep]
      simp [lessE_noerr x y hx hy]

theorem insGo_head (x : RangePoint) : ∀ l,
    (insGo x l).1.head? = some x ∨ (insGo x l).1.head? = l.head? := by
  intro l
  cases l with
  | nil => simp [insGo]
  | cons y ys =>
    by_cases h : (lessE x y).1
    · simp [insGo, h]
    · simp [insGo, h]

theorem insGo_chain (x : RangePoint) (hx : intOnlyV x.value = true) :
    ∀ l, (∀ p ∈ l, intOnlyV p.value = true) →
    List.Chain' (fun p q => CutLe q p) l →
    List.Chain' (fun p q => CutLe q p) (insGo x l).1 := by
  intro l
  induction l with
  | nil => simp [insGo]
  | cons y ys ih =>
    intro hm hch
    have hy : intOnlyV y.value = true := hm y (by simp)
    rw [List.chain'_cons'] at hch
    by_cases h : (lessE x y).1
    · have hstep : insGo x (y :: ys) = (y :: (insGo x ys).1,
          (lessE x y).2 || (insGo x ys).2) := by
        simp [insGo, h]
      rw [hstep]
      rw [List.chain'_cons']
      constructor
      · intro b hb
        rcases insGo_head x ys with hh | hh
        · rw [hh] at hb
          simp at hb
          subst hb
          exact (lessE_cut x y hx hy).1 h
        · rw [hh] at hb
          exact hch.1 b hb
      · exact ih (fun p hp => hm p (by simp [hp])) hch.2
    · have hstep : insGo x (y :: ys) = (x :: y :: ys, (lessE x y).2) := by
        simp [insGo, h]
      rw [hstep]
      rw [List.chain'_cons']
      refine ⟨?_, List.chain'_cons'.mpr hch⟩
      intro b hb
      simp at hb
      subst hb
      exact (lessE_cut x y hx hy).2 (by simpa using h)

theorem sortGoRev_invar :
    ∀ (l acc : List RangePoint) (e : Bool),
    (∀ p ∈ l, intOnlyV p.value = true) →
    (∀ p ∈ acc, intOnlyV p.value = true) →
    List.Chain' (fun p q => CutLe q p) acc →
    List.Perm (l.foldl (fun acc2 x =>
        let r := insGo x acc2.1
        (r.1, acc2.2 || r.2)) (acc, e)).1 (acc ++ l)
    ∧ (l.foldl (fun acc2 x =>
        let r := insGo x acc2.1
        (r.1, acc2.2 || r.2)) (acc, e)).2 = e
    ∧ List.Chain' (fun p q => CutLe q p)
        (l.foldl (fun acc2 x =>
          let r := insGo x acc2.1
          (r.1, acc2.2 || r.2)) (acc, e)).1 := by
  intro l
  induction l with
  | nil => intro acc e _ _ hch; exact ⟨by simp, rfl, hch⟩
  | cons x rest ih =>
    intro acc e hl hacc hch
    have hx : intOnlyV x.value = true := hl x (by simp)
    have hstep1 : List.Perm (insGo x acc).1 (x :: acc) := insGo_perm x acc
    have hstep2 : (insGo x acc).2 = false := insGo_noerr x hx acc hacc
    have hstepm : ∀ p ∈ (insGo x acc).1, intOnlyV p.value = true := by
      intro p hp
      have := hstep1.mem_iff.mp hp
      rcases List.mem_cons.mp this with rfl | hin
      · exact hx
      · exact hacc p hin
    have hstepc : List.Chain' (fun p q => CutLe q p) (insGo x acc).1 :=
      insGo_chain x hx acc hacc hch
    obtain ⟨g1, g2, g3⟩ := ih (insGo x acc).1 (e || (insGo x acc).2)
      (fun p hp => hl p (by simp [hp])) hstepm hstepc
    refine ⟨?_, ?_, ?_⟩
    · simp only [List.foldl_cons]
      refine g1.trans ?_
      refine (hstep1.append_right rest).trans ?_
      simpa using
        (List.perm_middle : List.Perm (acc ++ x :: rest) (x :: (acc ++ rest))).symm
    · simp only [List.foldl_cons]
      rw [g2, hstep2]
      simp
    · simpa only [List.foldl_cons] using g3

theorem sortGo_spec (l : List RangePoint)
    (hl : ∀ p ∈ l, intOnlyV p.value = true) :
    List.Perm (sortGo l).1 l ∧ (sortGo l).2 = false
    ∧ List.Chain' CutLe (sortGo l).1 := by
  obtain ⟨g1, g2, g3⟩ := sortGoRev_invar l [] false hl (by simp) (by simp)
  refine ⟨?_, ?_, ?_⟩
  · unfold sortGo sortGoRev
    simpa using (List.reverse_perm _).trans g1
  · unfold sortGo sortGoRev
    exact g2
  · unfold sortGo sortGoRev
    rw [List.chain'_reverse]
    exact g3

theorem chain_cutLe_all :
    ∀ (l : List RangePoint) (a : RangePoint), intOnlyV a.value = true →
    (∀ p ∈ l, intOnlyV p.value = true) →
    List.Chain' CutLe (a :: l) → ∀ b ∈ l, CutLe a b := by
  intro l
  induction l with
  | nil => intro a _ _ _ b hb; cases hb
  | cons c rest ih =>
    intro a ha hm hch b hb
    have hc : intOnlyV c.value = true := hm c (by simp)
    have hac : CutLe a c := (List.chain'_cons.mp hch).1
    rcases List.mem_cons.mp hb with rfl | hb2
    · exact hac
    · have hcb := ih c hc (fun p hp => hm p (by simp [hp]))
        (List.chain'_cons.mp hch).2 b hb2
      exact cutLe_trans a c b ha hc (hm b (by simp [hb2])) hac hcb

theorem chain_cutLe_pairwise :
    ∀ l : List RangePoint, (∀ p ∈ l, intOnlyV p.value = true) →
    List.Chain' CutLe l → List.Pairwise CutLe l := by
  intro l
  induction l with
  | nil => intro _ _; exact List.Pairwise.nil
  | cons a rest ih =>
    intro hm hch
    refine List.Pairwise.cons ?_ (ih (fun p hp => hm p (by simp [hp]))
      (List.Chain'.tail hch))
    exact chain_cutLe_all rest a (hm a (by simp))
      (fun p hp => hm p (by simp [hp])) hch

theorem depthAt_cons (p : RangePoint) (rest : List RangePoint) (v : Value) :
    depthAt (p :: rest) v
      = (if cutLeVB p v then (if p.start then (1 : Int) else -1) else 0)
        + depthAt rest v := by
  simp [depthAt]

theorem depthAt_zero (v : Value) :
    ∀ pts : List RangePoint, (∀ q ∈ pts, cutLeVB q v = false) →
    depthAt pts v = 0 := by
  intro pts
  induction pts with
  | nil => intro _; rfl
  | cons p rest ih =>
    intro h
    rw [depthAt_cons, h p (by simp), ih (fun q hq => h q (by simp [hq]))]
    simp

theorem depthAt_perm (l l2 : List RangePoint) (v : Value)
    (h : List.Perm l l2) : depthAt l v = depthAt l2 v := by
  unfold depthAt
  exact List.Perm.sum_eq (h.map _)

theorem depthAt_append (a b : List RangePoint) (v : Value) :
    depthAt (a ++ b) v = depthAt a v + depthAt b v := by
  simp [depthAt]

theorem netCount_altPairs : ∀ pts, AltPairs pts → netCount pts = 0 := by
  intro pts h
  induction h with
  | nil => rfl
  | cons s e rest hs he _ ih =>
    simp [netCount, hs, he] at *
    omega

theorem netCount_perm (l l2 : List RangePoint) (h : List.Perm l l2) :
    netCount l = netCount l2 := by
  unfold netCount
  exact List.Perm.sum_eq (h.map _)

theorem netCount_append (a b : List RangePoint) :
    netCount (a ++ b) = netCount a + netCount b := by
  simp [netCount]

theorem sweep_sublist (req : Int) :
    ∀ (pts : List RangePoint) (c : Int), List.Sublist (sweepGo req pts c) pts := by
  intro pts
  induction pts with
  | nil => intro c; simp [sweepGo]
  | cons p rest ih =>
    intro c
    by_cases hs : p.start
    · rw [sweepGo, if_pos hs]
      by_cases he : c + 1 = req
      · rw [if_pos he]
        exact List.Sublist.cons₂ p (ih (c + 1))
      · rw [if_neg he]
        exact List.Sublist.cons p (ih (c + 1))
    · rw [sweepGo, if_neg hs]
      by_cases he : c = req
      · rw [if_pos he]
        exact List.Sublist.cons₂ p (ih (c - 1))
      · rw [if_neg he]
        exact List.Sublist.cons p (ih (c - 1))

theorem sweep_shape (req : Int) :
    ∀ (pts : List RangePoint) (c : Int),
    Shape (decide (req ≤ c)) (decide (req ≤ c + netCount pts)) (sweepGo req pts c) := by
  intro pts
  induction pts with
  | nil =>
    intro c
    have : c + netCount [] = c := by simp [netCount]
    rw [this, sweepGo]
    exact Shape.nil _
  | cons p rest ih =>
    intro c
    have hnet : c + netCount (p :: rest)
        = (c + (if p.start then (1 : Int) else -1)) + netCount rest := by
      simp [netCount]
      omega
    by_cases hs : p.start
    · rw [hnet, hs]
      by_cases he : c + 1 = req
      · have h1 : decide (req ≤ c) = false := by
          simp
          omega
        have h2 : decide (req ≤ c + 1) = true := by
          simp
          omega
        rw [sweepGo, if_pos hs, if_pos he, h1]
        simp only [if_true]
        refine Shape.start _ p _ hs ?_
        have := ih (c + 1)
        rw [h2] at this
        simpa using this
      · have h1 : decide (req ≤ c) = decide (req ≤ c + 1) := by
          simp only [decide_eq_decide]
          omega
        rw [sweepGo, if_pos hs, if_neg he]
        rw [h1]
        simpa using ih (c + 1)
    · rw [hnet]
      simp only [hs, if_false]
      by_cases he : c = req
      · have h1 : decide (req ≤ c) = true := by
          simp
          omega
        have h2 : decide (req ≤ c - 1) = false := by
          simp
          omega
        rw [sweepGo, if_neg hs, if_pos he, h1]
        refine Shape.stop _ p _ (by simp at hs; exact hs) ?_
        have := ih (c - 1)
        rw [h2] at this
        simpa using this
      · have h1 : decide (req ≤ c) = decide (req ≤ c - 1) := by
          simp only [decide_eq_decide]
          omega
        rw [sweepGo, if_neg hs, if_neg he]
        rw [h1]
        simpa using ih (c - 1)

theorem memPh_true_cons (e : RangePoint) (rest : List RangePoint) (v : Value) :
    memPh true (e :: rest) v = if cutLeVB e v then memPh false rest v else true := rfl

theorem memPh_false_cons (s : RangePoint) (rest : List RangePoint) (v : Value) :
    memPh false (s :: rest) v = if cutLeVB s v then memPh true rest v else false := rfl

theorem sweep_memPh (req : Int) (v : Value) (hv : intOnlyV v = true) :
    ∀ (pts : List RangePoint) (c : Int),
    List.Pairwise CutLe pts → (∀ p ∈ pts, intOnlyV p.value = true) →
    memPh (decide (req ≤ c)) (sweepGo req pts c) v = decide (req ≤ c + depthAt pts v) := by
  intro pts
  induction pts with
  | nil =>
    intro c _ _
    rw [sweepGo, show depthAt [] v = 0 from rfl, add_zero]
    cases hq : decide (req ≤ c)
    · rfl
    · rfl
  | cons p rest ih =>
    intro c hpw hm
    obtain ⟨hrel, hpw2⟩ := List.pairwise_cons.mp hpw
    have hp : intOnlyV p.value = true := hm p (by simp)
    have hm2 : ∀ q ∈ rest, intOnlyV q.value = true := fun q hq => hm q (by simp [hq])
    have hD0 : cutLeVB p v = false → depthAt rest v = 0 := by
      intro hc
      refine depthAt_zero v rest (fun q hq => ?_)
      cases hcq : cutLeVB q v
      · rfl
      · have ht := cutLe_transport p q v hp (hm2 q hq) hv (hrel q hq) hcq
        rw [ht] at hc
        exact absurd hc (by simp)
    rw [depthAt_cons]
    by_cases hs : p.start
    · rw [sweepGo, if_pos hs]
      by_cases he : c + 1 = req
      · have h0 : decide (req ≤ c) = false := by
          simp only [decide_eq_false_iff_not]
          omega
        rw [if_pos he, h0, memPh_false_cons, hs]
        cases hcut : cutLeVB p v
        · rw [hD0 hcut]
          show false = decide (req ≤ c + ((0 : Int) + 0))
          have hz : decide (req ≤ c + ((0 : Int) + 0)) = false := by
            simp only [decide_eq_false_iff_not]
            omega
          rw [hz]
        · have h1 : decide (req ≤ c + 1) = true := by
            simp only [decide_eq_true_eq]
            omega
          have hI := ih (c + 1) hpw2 hm2
          rw [h1] at hI
          show memPh true (sweepGo req rest (c + 1)) v
            = decide (req ≤ c + ((1 : Int) + depthAt rest v))
          rw [hI]
          simp only [decide_eq_decide]
          omega
      · have h01 : decide (req ≤ c) = decide (req ≤ c + 1) := by
          simp only [decide_eq_decide]
          omega
        rw [if_neg he, h01, ih (c + 1) hpw2 hm2, hs]
        cases hcut : cutLeVB p v
        · rw [hD0 hcut]
          show decide (req ≤ c + 1 + 0) = decide (req ≤ c + ((0 : Int) + 0))
          simp only [decide_eq_decide]
          omega
        · show decide (req ≤ c + 1 + depthAt rest v)
            = decide (req ≤ c + ((1 : Int) + depthAt rest v))
          simp only [decide_eq_decide]
          omega
    · have hs2 : p.start = false := by
        simp at hs
        exact hs
      rw [sweepGo, if_neg hs]
      by_cases he : c = req
      · have h0 : decide (req ≤ c) = true := by
          simp only [decide_eq_true_eq]
          omega
        rw [if_pos he, h0, memPh_true_cons, hs2]
        cases hcut : cutLeVB p v
        · rw [hD0 hcut]
          show true = decide (req ≤ c + ((0 : Int) + 0))
          have hz : decide (req ≤ c + ((0 : Int) + 0)) = true := by
            simp only [decide_eq_true_eq]
            omega
          rw [hz]
        · have h2 : decide (req ≤ c - 1) = false := by
            simp only [decide_eq_false_iff_not]
            omega
          have hI := ih (c - 1) hpw2 hm2
          rw [h2] at hI
          show memPh false (sweepGo req rest (c - 1)) v
            = decide (req ≤ c + ((-1 : Int) + depthAt rest v))
          rw [hI]
          simp only [decide_eq_decide]
          omega
      · have h01 : decide (req ≤ c) = decide (req ≤ c - 1) := by
          simp only [decide_eq_decide]
          omega
        rw [if_neg he, h01, ih (c - 1) hpw2 hm2, hs2]
        cases hcut : cutLeVB p v
        · rw [hD0 hcut]
          show decide (req ≤ c - 1 + 0) = decide (req ≤ c + ((0 : Int) + 0))
          simp only [decide_eq_decide]
          omega
        · show decide (req ≤ c - 1 + depthAt rest v)
            = decide (req ≤ c + ((-1 : Int) + depthAt rest v))
          simp only [decide_eq_decide]
          omega

theorem shape_alt : ∀ (ph1 ph2 : Bool) (l : List RangePoint), Shape ph1 ph2 l → ph2 = false →
    (ph1 = false → AltPairs l) ∧
    (ph1 = true → ∃ e rest, l = e :: rest ∧ e.start = false ∧ AltPairs rest) := by
  intro ph1 ph2 l h
  induction h with
  | nil ph =>
    intro hph
    refine ⟨fun _ => AltPairs.nil, fun h1 => ?_⟩
    rw [h1] at hph
    exact absurd hph (by simp)
  | start ph2 s rest hs hsh ih =>
    intro hph
    obtain ⟨_, ih2⟩ := ih hph
    refine ⟨fun _ => ?_, fun h1 => absurd h1 (by simp)⟩
    obtain ⟨e, rest2, heq, he, halt⟩ := ih2 rfl
    rw [heq]
    exact AltPairs.cons s e rest2 hs he halt
  | stop ph2 e rest he hsh ih =>
    intro hph
    obtain ⟨ih1, _⟩ := ih hph
    exact ⟨fun h1 => absurd h1 (by simp), fun _ => ⟨e, rest, rfl, he, ih1 rfl⟩⟩

theorem valCmp_swap (a b : Value) (ha : intOnlyV a = true) (hb : intOnlyV b = true) :
    valCmp b a = (valCmp a b).swap := by
  cases a <;> cases b <;>
    first
      | rfl
      | (simp only [valCmp, intCmp]
         split_ifs <;> first | rfl | (exfalso; omega))
      | simp_all [intOnlyV]

theorem inIntervalRP_cut (lo hi : RangePoint) (v : Value)
    (hlo : lo.start = true) (hhi : hi.start = false)
    (h1 : intOnlyV lo.value = true) (h2 : intOnlyV hi.value = true)
    (hv : intOnlyV v = true) :
    inIntervalRP lo hi v = (cutLeVB lo v && !(cutLeVB hi v)) := by
  have hsw := valCmp_swap hi.value v h2 hv
  unfold inIntervalRP cutLeVB afterCut
  rw [hsw, hlo, hhi]
  cases hq1 : valCmp lo.value v <;> cases hq2 : valCmp hi.value v <;>
    simp [Ordering.swap]

theorem containsVal_nocut (v : Value) (hv : intOnlyV v = true) :
    ∀ pts, AltPairs pts → (∀ p ∈ pts, intOnlyV p.value = true) →
    (∀ q ∈ pts, cutLeVB q v = false) → containsVal pts v = false := by
  intro pts h
  induction h with
  | nil => intro _ _; rfl
  | cons s e rest hs he _ ih =>
    intro hm hq
    have hse : inIntervalRP s e v = false := by
      rw [inIntervalRP_cut s e v hs he (hm s (by simp)) (hm e (by simp)) hv,
          hq s (by simp)]
      rfl
    rw [show containsVal (s :: e :: rest) v
          = (inIntervalRP s e v || containsVal rest v) from rfl,
        hse, ih (fun p hp => hm p (by simp [hp])) (fun q hqq => hq q (by simp [hqq]))]
    rfl

theorem containsVal_memPh (v : Value) (hv : intOnlyV v = true) :
    ∀ pts, AltPairs pts → List.Pairwise CutLe pts →
    (∀ p ∈ pts, intOnlyV p.value = true) →
    containsVal pts v = memPh false pts v := by
  intro pts h
  induction h with
  | nil => intro _ _; rfl
  | cons s e rest hs he halt ih =>
    intro hpw hm
    obtain ⟨hrs, hpw2⟩ := List.pairwise_cons.mp hpw
    obtain ⟨hre, hpw3⟩ := List.pairwise_cons.mp hpw2
    have hmr : ∀ p ∈ rest, intOnlyV p.value = true := fun p hp => hm p (by simp [hp])
    have hsv : intOnlyV s.value = true := hm s (by simp)
    have hev : intOnlyV e.value = true := hm e (by simp)
    rw [show containsVal (s :: e :: rest) v
          = (inIntervalRP s e v || containsVal rest v) from rfl,
        memPh_false_cons, inIntervalRP_cut s e v hs he hsv hev hv]
    cases hcs : cutLeVB s v
    · have hnc : ∀ q ∈ rest, cutLeVB q v = false := by
        intro q hq
        cases hcq : cutLeVB q v
        · rfl
        · have ht := cutLe_transport s q v hsv (hmr q hq) hv (hrs q (by simp [hq])) hcq
          rw [hcs] at ht
          exact absurd ht (by simp)
      rw [containsVal_nocut v hv rest halt hmr hnc]
      rfl
    · rw [memPh_true_cons]
      cases hce : cutLeVB e v
      · simp
      · rw [ih hpw3 hmr]
        simp

theorem depth_indicator (v : Value) (hv : intOnlyV v = true) :
    ∀ pts, AltPairs pts → List.Pairwise CutLe pts →
    (∀ p ∈ pts, intOnlyV p.value = true) →
    depthAt pts v = if containsVal pts v then 1 else 0 := by
  intro pts h
  induction h with
  | nil => intro _ _; rfl
  | cons s e rest hs he halt ih =>
    intro hpw hm
    obtain ⟨hrs, hpw2⟩ := List.pairwise_cons.mp hpw
    obtain ⟨hre, hpw3⟩ := List.pairwise_cons.mp hpw2
    have hmr : ∀ p ∈ rest, intOnlyV p.value = true := fun p hp => hm p (by simp [hp])
    have hsv : intOnlyV s.value = true := hm s (by simp)
    have hev : intOnlyV e.value = true := hm e (by simp)
    rw [depthAt_cons, depthAt_cons,
        show containsVal (s :: e :: rest) v
          = (inIntervalRP s e v || containsVal rest v) from rfl,
        inIntervalRP_cut s e v hs he hsv hev hv, hs, he]
    cases hcs : cutLeVB s v
    · have hce : cutLeVB e v = false := by
        cases hq : cutLeVB e v
        · rfl
        · have ht := cutLe_transport s e v hsv hev hv (hrs e (by simp)) hq
          rw [hcs] at ht
          exact absurd ht (by simp)
      have hnc : ∀ q ∈ rest, cutLeVB q v = false := by
        intro q hq
        cases hcq : cutLeVB q v
        · rfl
        · have ht := cutLe_transport s q v hsv (hmr q hq) hv (hrs q (by simp [hq])) hcq
          rw [hcs] at ht
          exact absurd ht (by simp)
      rw [hce, depthAt_zero v rest hnc, containsVal_nocut v hv rest halt hmr hnc]
      simp
    · cases hce : cutLeVB e v
      · have hnc : ∀ q ∈ rest, cutLeVB q v = false := by
          intro q hq
          cases hcq : cutLeVB q v
          · rfl
          · have ht := cutLe_transport e q v hev (hmr q hq) hv (hre q hq) hcq
            rw [hce] at ht
            exact absurd ht (by simp)
        rw [depthAt_zero v rest hnc, containsVal_nocut v hv rest halt hmr hnc]
        simp
      · rw [ih hpw3 hmr]
        cases hC : containsVal rest v
        · simp
        · simp

theorem mergeRP_spec (a b : List RangePoint) (u : Bool)
    (ha : WFpts a) (hb : WFpts b) :
    WFpts (mergeRP a b u) ∧ ∀ v, intOnlyV v = true →
      containsVal (mergeRP a b u) v
        = (if u then containsVal a v || containsVal b v
           else containsVal a v && containsVal b v) := by
  obtain ⟨haa, hap, ham⟩ := ha
  obtain ⟨hba, hbp, hbm⟩ := hb
  have hm : ∀ p ∈ a ++ b, intOnlyV p.value = true := by
    intro p hp
    rcases List.mem_append.mp hp with h | h
    · exact ham p h
    · exact hbm p h
  obtain ⟨hperm, herr, hchain⟩ := sortGo_spec (a ++ b) hm
  have hms : ∀ p ∈ (sortGo (a ++ b)).1, intOnlyV p.value = true :=
    fun p hp => hm p (hperm.subset hp)
  have hpws : List.Pairwise CutLe (sortGo (a ++ b)).1 :=
    chain_cutLe_pairwise (sortGo (a ++ b)).1 hms hchain
  have hmerge : mergeRP a b u
      = sweepGo (if u then (1 : Int) else 2) (sortGo (a ++ b)).1 0 := by
    simp [mergeRP, herr]
  have hnet : netCount (sortGo (a ++ b)).1 = 0 := by
    rw [netCount_perm _ _ hperm, netCount_append,
        netCount_altPairs a haa, netCount_altPairs b hba]
    simp
  have h0 : decide ((if u then (1 : Int) else 2) ≤ 0) = false := by
    cases u <;> simp
  have hshape := sweep_shape (if u then (1 : Int) else 2) (sortGo (a ++ b)).1 0
  rw [hnet, h0] at hshape
  have h0x : decide ((if u then (1 : Int) else 2) ≤ 0 + 0) = false := by
    cases u <;> simp
  rw [h0x] at hshape
  have halt : AltPairs (mergeRP a b u) := by
    rw [hmerge]
    exact (shape_alt false false _ hshape rfl).1 rfl
  have hsub : List.Sublist (mergeRP a b u) (sortGo (a ++ b)).1 := by
    rw [hmerge]
    exact sweep_sublist _ _ 0
  have hpwo : List.Pairwise CutLe (mergeRP a b u) := List.Pairwise.sublist hsub hpws
  have hmo : ∀ p ∈ mergeRP a b u, intOnlyV p.value = true :=
    fun p hp => hms p (hsub.subset hp)
  refine ⟨⟨halt, hpwo, hmo⟩, ?_⟩
  intro v hv
  have hcm := containsVal_memPh v hv (mergeRP a b u) halt hpwo hmo
  have hsw := sweep_memPh (if u then (1 : Int) else 2) v hv (sortGo (a ++ b)).1 0 hpws hms
  rw [h0] at hsw
  rw [hcm, hmerge, hsw]
  have hd : depthAt (sortGo (a ++ b)).1 v = depthAt a v + depthAt b v := by
    rw [depthAt_perm _ _ v hperm, depthAt_append]
  rw [hd, depth_indicator v hv a haa hap ham, depth_indicator v hv b hba hbp hbm]
  cases u <;> cases hA : containsVal a v <;> cases hB : containsVal b v <;> decide

theorem intCmp_lt_of {a b : Int} (h : a < b) : intCmp a b = .lt := by
  unfold intCmp
  rw [if_pos h]

theorem intCmp_gt_of {a b : Int} (h : b < a) : intCmp a b = .gt := by
  unfold intCmp
  rw [if_neg (by omega), if_neg (by omega)]

theorem valCmp_int_self (n : Int) : valCmp (.int n) (.int n) = .eq := intCmp_self n

theorem cutle_same_int (n : Int) (e1 s1 e2 s2 : Bool)
    (h : afterCut ⟨.int n, e1, s1⟩ = true → afterCut ⟨.int n, e2, s2⟩ = true) :
    CutLe ⟨.int n, e1, s1⟩ ⟨.int n, e2, s2⟩ :=
  Or.inr ⟨valCmp_int_self n, h⟩

theorem cutle_int_lt {a b : Int} (h : a < b) (e1 s1 e2 s2 : Bool) :
    CutLe ⟨.int a, e1, s1⟩ ⟨.int b, e2, s2⟩ :=
  Or.inl (intCmp_lt_of h)

theorem cutle_int_le {a b : Int} (hle : a ≤ b) (e1 s1 e2 s2 : Bool)
    (hac : afterCut ⟨.int a, e1, s1⟩ = false) :
    CutLe ⟨.int a, e1, s1⟩ ⟨.int b, e2, s2⟩ := by
  rcases lt_or_eq_of_le hle with h | h
  · exact cutle_int_lt h e1 s1 e2 s2
  · subst h
    refine cutle_same_int a e1 s1 e2 s2 (fun hc => ?_)
    rw [hac] at hc
    exact absurd hc (by simp)

theorem pairwise2T {R : RangePoint → RangePoint → Prop} (a b : RangePoint)
    (h : R a b) : List.Pairwise R [a, b] := by
  simp [List.pairwise_cons, h]

theorem pairwise4T {R : RangePoint → RangePoint → Prop} (a b c d : RangePoint)
    (h1 : R a b) (h2 : R a c) (h3 : R a d) (h4 : R b c) (h5 : R b d)
    (h6 : R c d) : List.Pairwise R [a, b, c, d] := by
  simp only [List.pairwise_cons, List.mem_cons, List.mem_singleton]
  refine ⟨?_, ?_, ?_, by simp⟩
  · intro x hx
    rcases hx with rfl | rfl | hx
    · exact h1
    · exact h2
    · simp at hx
      rw [hx]
      exact h3
  · intro x hx
    rcases hx with rfl | hx
    · exact h4
    · simp at hx
      rw [hx]
      exact h5
  · intro x hx
    simp at hx
    rw [hx]
    exact h6

theorem triOf_boolv (b : Bool) : triOf (.boolv b) = some (some b) := by
  cases b <;> rfl

theorem triOf_triVal (t : Option Bool) : triOf (triVal t) = some t := by
  cases t with
  | none => rfl
  | some b => cases b <;> rfl

theorem colV_cases (v : Value) (hv : colV v = true) :
    v = .null ∨ ∃ m, v = .int m := by
  cases v <;> simp_all [colV]

theorem colV_intOnly (v : Value) (hv : colV v = true) : intOnlyV v = true := by
  cases v <;> simp_all [colV, intOnlyV]

theorem and3_some_true (x y : Option Bool) :
    and3 x y = some true ↔ x = some true ∧ y = some true := by
  rcases x with _ | b1
  · rcases y with _ | b2
    · simp [and3]
    · cases b2 <;> simp [and3]
  · rcases y with _ | b2
    · cases b1 <;> simp [and3]
    · cases b1 <;> cases b2 <;> simp [and3]

theorem or3_some_true (x y : Option Bool) :
    or3 x y = some true ↔ x = some true ∨ y = some true := by
  rcases x with _ | b1
  · rcases y with _ | b2
    · simp [or3]
    · cases b2 <;> simp [or3]
  · rcases y with _ | b2
    · cases b1 <;> simp [or3]
    · cases b1 <;> cases b2 <;> simp [or3]

theorem opHolds_flip (op : Op) (m n : Int) :
    opHolds (flipOp op) (intCmp m n) = opHolds op (intCmp n m) := by
  rcases lt_trichotomy m n with h | h | h
  · rw [intCmp_lt_of h, intCmp_gt_of h]
    cases op <;> rfl
  · subst h
    rw [intCmp_self]
    cases op <;> rfl
  · rw [intCmp_gt_of h, intCmp_lt_of h]
    cases op <;> rfl

theorem contains_cmp_eq (n m : Int) :
    containsVal [⟨.int n, false, true⟩, ⟨.int n, false, false⟩] (.int m)
      = opHolds .eq (intCmp m n) := by
  show (inIntervalRP _ _ _ || false) = _
  unfold inIntervalRP opHolds
  simp only [valCmp]
  rcases lt_trichotomy m n with h | h | h
  · rw [intCmp_lt_of h, intCmp_gt_of h]
    simp
  · subst h
    rw [intCmp_self]
    simp
  · rw [intCmp_gt_of h, intCmp_lt_of h]
    simp

theorem contains_cmp_ne (n m : Int) :
    containsVal [⟨.minNotNull, false, true⟩, ⟨.int n, true, false⟩,
      ⟨.int n, true, true⟩, ⟨.maxVal, false, false⟩] (.int m)
      = opHolds .ne (intCmp m n) := by
  show (inIntervalRP _ _ _ || (inIntervalRP _ _ _ || false)) = _
  unfold inIntervalRP opHolds
  simp only [valCmp]
  rcases lt_trichotomy m n with h | h | h
  · rw [intCmp_lt_of h, intCmp_gt_of h]
    simp [natCmp, valRank]
  · subst h
    rw [intCmp_self]
    simp [natCmp, valRank]
  · rw [intCmp_gt_of h, intCmp_lt_of h]
    simp [natCmp, valRank]

theorem contains_cmp_lt (n m : Int) :
    containsVal [⟨.minNotNull, false, true⟩, ⟨.int n, true, false⟩] (.int m)
      = opHolds .lt (intCmp m n) := by
  show (inIntervalRP _ _ _ || false) = _
  unfold inIntervalRP opHolds
  simp only [valCmp]
  rcases lt_trichotomy m n with h | h | h
  · rw [intCmp_lt_of h]
    simp [natCmp, valRank]
  · subst h
    rw [intCmp_self]
    simp [natCmp, valRank]
  · rw [intCmp_gt_of h]
    simp [natCmp, valRank]

theorem contains_cmp_le (n m : Int) :
    containsVal [⟨.minNotNull, false, true⟩, ⟨.int n, false, false⟩] (.int m)
      = opHolds .le (intCmp m n) := by
  show (inIntervalRP _ _ _ || false) = _
  unfold inIntervalRP opHolds
  simp only [valCmp]
  rcases lt_trichotomy m n with h | h | h
  · rw [intCmp_lt_of h]
    simp [natCmp, valRank]
  · subst h
    rw [intCmp_self]
    simp [natCmp, valRank]
  · rw [intCmp_gt_of h]
    simp [natCmp, valRank]

theorem contains_cmp_gt (n m : Int) :
    containsVal [⟨.int n, true, true⟩, ⟨.maxVal, false, false⟩] (.int m)
      = opHolds .gt (intCmp m n) := by
  show (inIntervalRP _ _ _ || false) = _
  unfold inIntervalRP opHolds
  simp only [valCmp]
  rcases lt_trichotomy m n with h | h | h
  · rw [intCmp_gt_of h, intCmp_lt_of h]
    simp [natCmp, valRank]
  · subst h
    rw [intCmp_self]
    simp [natCmp, valRank]
  · rw [intCmp_lt_of h, intCmp_gt_of h]
    simp [natCmp, valRank]

theorem contains_cmp_ge (n m : Int) :
    containsVal [⟨.int n, false, true⟩, ⟨.maxVal, false, false⟩] (.int m)
      = opHolds .ge (intCmp m n) := by
  show (inIntervalRP _ _ _ || false) = _
  unfold inIntervalRP opHolds
  simp only [valCmp]
  rcases lt_trichotomy m n with h | h | h
  · rw [intCmp_gt_of h, intCmp_lt_of h]
    simp [natCmp, valRank]
  · subst h
    rw [intCmp_self]
    simp [natCmp, valRank]
  · rw [intCmp_lt_of h, intCmp_gt_of h]
    simp [natCmp, valRank]

theorem contains_between_pts (lo hi m : Int) :
    containsVal [⟨.int lo, false, true⟩, ⟨.int hi, false, false⟩] (.int m)
      = (opHolds .ge (intCmp m lo) && opHolds .le (intCmp m hi)) := by
  show (inIntervalRP _ _ _ || false) = _
  unfold inIntervalRP opHolds
  simp only [valCmp]
  rcases lt_trichotomy m lo with h1 | h1 | h1
  · rw [intCmp_gt_of h1, intCmp_lt_of h1]
    simp
  · rw [h1, intCmp_self]
    cases h2 : intCmp lo hi <;> simp
  · rw [intCmp_lt_of h1, intCmp_gt_of h1]
    cases h2 : intCmp m hi <;> simp

theorem contains_between_not_pts (lo hi m : Int) :
    containsVal [⟨.minNotNull, false, true⟩, ⟨.int lo, true, false⟩,
      ⟨.int hi, true, true⟩, ⟨.maxVal, false, false⟩] (.int m)
      = (opHolds .lt (intCmp m lo) || opHolds .gt (intCmp m hi)) := by
  show (inIntervalRP _ _ _ || (inIntervalRP _ _ _ || false)) = _
  unfold inIntervalRP opHolds
  simp only [valCmp]
  rcases lt_trichotomy m hi with h2 | h2 | h2
  · rw [intCmp_lt_of h2, intCmp_gt_of h2]
    cases h1 : intCmp m lo <;> simp [natCmp, valRank]
  · rw [h2, intCmp_self]
    cases h1 : intCmp hi lo <;> simp [natCmp, valRank]
  · rw [intCmp_gt_of h2, intCmp_lt_of h2]
    cases h1 : intCmp m lo <;> simp [natCmp, valRank]

theorem contains_not_truth_pts (m : Int) :
    containsVal [⟨.null, false, true⟩, ⟨.null, false, false⟩,
      ⟨.int 0, false, true⟩, ⟨.int 0, false, false⟩] (.int m)
      = opHolds .eq (intCmp m 0) := by
  show (inIntervalRP _ _ _ || (inIntervalRP _ _ _ || false)) = _
  unfold inIntervalRP opHolds
  simp only [valCmp]
  rcases lt_trichotomy m 0 with h | h | h
  · rw [intCmp_lt_of h, intCmp_gt_of h]
    simp [natCmp, valRank]
  · rw [h, intCmp_self]
    simp [natCmp, valRank]
  · rw [intCmp_gt_of h, intCmp_lt_of h]
    simp [natCmp, valRank]

theorem contains_not_false_pts (m : Int) :
    containsVal [⟨.null, false, true⟩, ⟨.int 0, true, false⟩,
      ⟨.int 0, true, true⟩, ⟨.maxVal, false, false⟩] (.int m)
      = opHolds .ne (intCmp m 0) := by
  show (inIntervalRP _ _ _ || (inIntervalRP _ _ _ || false)) = _
  unfold inIntervalRP opHolds
  simp only [valCmp]
  rcases lt_trichotomy m 0 with h | h | h
  · rw [intCmp_lt_of h, intCmp_gt_of h]
    simp [natCmp, valRank]
  · rw [h, intCmp_self]
    simp [natCmp, valRank]
  · rw [intCmp_gt_of h, intCmp_lt_of h]
    simp [natCmp, valRank]

theorem contains_null_eqS (n : Int) :
    containsVal [⟨.int n, false, true⟩, ⟨.int n, false, false⟩] .null = false := rfl

theorem contains_null_neS (n : Int) :
    containsVal [⟨.minNotNull, false, true⟩, ⟨.int n, true, false⟩,
      ⟨.int n, true, true⟩, ⟨.maxVal, false, false⟩] .null = false := rfl

theorem contains_null_ltS (n : Int) :
    containsVal [⟨.minNotNull, false, true⟩, ⟨.int n, true, false⟩] .null = false := rfl

theorem contains_null_leS (n : Int) :
    containsVal [⟨.minNotNull, false, true⟩, ⟨.int n, false, false⟩] .null = false := rfl

theorem contains_null_gtS (n : Int) :
    containsVal [⟨.int n, true, true⟩, ⟨.maxVal, false, false⟩] .null = false := rfl

theorem contains_null_geS (n : Int) :
    containsVal [⟨.int n, false, true⟩, ⟨.maxVal, false, false⟩] .null = false := rfl

theorem contains_null_betweenS (lo hi : Int) :
    containsVal [⟨.int lo, false, true⟩, ⟨.int hi, false, false⟩] .null = false := rfl

theorem contains_null_between_notS (lo hi : Int) :
    containsVal [⟨.minNotNull, false, true⟩, ⟨.int lo, true, false⟩,
      ⟨.int hi, true, true⟩, ⟨.maxVal, false, false⟩] .null = false := rfl

theorem contains_null_pairS :
    containsVal [⟨.null, false, true⟩, ⟨.null, false, false⟩] .null = true := rfl

theorem contains_int_pairS (m : Int) :
    containsVal [⟨.null, false, true⟩, ⟨.null, false, false⟩] (.int m) = false := rfl

theorem contains_null_fullS :
    containsVal [⟨.minNotNull, false, true⟩, ⟨.maxVal, false, false⟩] .null = false := rfl

theorem contains_int_fullS (m : Int) :
    containsVal [⟨.minNotNull, false, true⟩, ⟨.maxVal, false, false⟩] (.int m) = true := rfl

theorem contains_null_not_truthS :
    containsVal [⟨.null, false, true⟩, ⟨.null, false, false⟩,
      ⟨.int 0, false, true⟩, ⟨.int 0, false, false⟩] .null = true := rfl

theorem contains_null_not_falseS :
    containsVal [⟨.null, false, true⟩, ⟨.int 0, true, false⟩,
      ⟨.int 0, true, true⟩, ⟨.maxVal, false, false⟩] .null = true := rfl

theorem wf_eqS (n : Int) :
    WFpts [⟨.int n, false, true⟩, ⟨.int n, false, false⟩] := by
  refine ⟨AltPairs.cons _ _ _ rfl rfl AltPairs.nil,
    pairwise2T _ _ (cutle_int_le le_rfl _ _ _ _ rfl), ?_⟩
  intro p hp
  simp at hp
  rcases hp with rfl | rfl <;> rfl

theorem wf_neS (n : Int) :
    WFpts [⟨.minNotNull, false, true⟩, ⟨.int n, true, false⟩,
      ⟨.int n, true, true⟩, ⟨.maxVal, false, false⟩] := by
  refine ⟨AltPairs.cons _ _ _ rfl rfl (AltPairs.cons _ _ _ rfl rfl AltPairs.nil),
    pairwise4T _ _ _ _ (Or.inl rfl) (Or.inl rfl) (Or.inl rfl)
      (cutle_int_le le_rfl _ _ _ _ rfl) (Or.inl rfl) (Or.inl rfl), ?_⟩
  intro p hp
  simp at hp
  rcases hp with rfl | rfl | rfl | rfl <;> rfl

theorem wf_ltS (n : Int) :
    WFpts [⟨.minNotNull, false, true⟩, ⟨.int n, true, false⟩] := by
  refine ⟨AltPairs.cons _ _ _ rfl rfl AltPairs.nil,
    pairwise2T _ _ (Or.inl rfl), ?_⟩
  intro p hp
  simp at hp
  rcases hp with rfl | rfl <;> rfl

theorem wf_leS (n : Int) :
    WFpts [⟨.minNotNull, false, true⟩, ⟨.int n, false, false⟩] := by
  refine ⟨AltPairs.cons _ _ _ rfl rfl AltPairs.nil,
    pairwise2T _ _ (Or.inl rfl), ?_⟩
  intro p hp
  simp at hp
  rcases hp with rfl | rfl <;> rfl

theorem wf_gtS (n : Int) :
    WFpts [⟨.int n, true, true⟩, ⟨.maxVal, false, false⟩] := by
  refine ⟨AltPairs.cons _ _ _ rfl rfl AltPairs.nil,
    pairwise2T _ _ (Or.inl rfl), ?_⟩
  intro p hp
  simp at hp
  rcases hp with rfl | rfl <;> rfl

theorem wf_geS (n : Int) :
    WFpts [⟨.int n, false, true⟩, ⟨.maxVal, false, false⟩] := by
  refine ⟨AltPairs.cons _ _ _ rfl rfl AltPairs.nil,
    pairwise2T _ _ (Or.inl rfl), ?_⟩
  intro p hp
  simp at hp
  rcases hp with rfl | rfl <;> rfl

theorem wf_betweenS (lo hi : Int) (hle : lo ≤ hi) :
    WFpts [⟨.int lo, false, true⟩, ⟨.int hi, false, false⟩] := by
  refine ⟨AltPairs.cons _ _ _ rfl rfl AltPairs.nil,
    pairwise2T _ _ (cutle_int_le hle _ _ _ _ rfl), ?_⟩
  intro p hp
  simp at hp
  rcases hp with rfl | rfl <;> rfl

theorem wf_between_notS (lo hi : Int) (hle : lo ≤ hi) :
    WFpts [⟨.minNotNull, false, true⟩, ⟨.int lo, true, false⟩,
      ⟨.int hi, true, true⟩, ⟨.maxVal, false, false⟩] := by
  refine ⟨AltPairs.cons _ _ _ rfl rfl (AltPairs.cons _ _ _ rfl rfl AltPairs.nil),
    pairwise4T _ _ _ _ (Or.inl rfl) (Or.inl rfl) (Or.inl rfl)
      (cutle_int_le hle _ _ _ _ rfl) (Or.inl rfl) (Or.inl rfl), ?_⟩
  intro p hp
  simp at hp
  rcases hp with rfl | rfl | rfl | rfl <;> rfl

theorem wf_isnull_notS :
    WFpts [⟨.minNotNull, false, true⟩, ⟨.maxVal, false, false⟩] := by
  refine ⟨AltPairs.cons _ _ _ rfl rfl AltPairs.nil,
    pairwise2T _ _ (Or.inl rfl), ?_⟩
  intro p hp
  simp at hp
  rcases hp with rfl | rfl <;> rfl

theorem wf_isnullS :
    WFpts [⟨.null, false, true⟩, ⟨.null, false, false⟩] := by
  refine ⟨AltPairs.cons _ _ _ rfl rfl AltPairs.nil,
    pairwise2T _ _ (Or.inr ⟨rfl, fun hc => by simp [afterCut] at hc⟩), ?_⟩
  intro p hp
  simp at hp
  rcases hp with rfl | rfl <;> rfl

theorem wf_not_truthS :
    WFpts [⟨.null, false, true⟩, ⟨.null, false, false⟩,
      ⟨.int 0, false, true⟩, ⟨.int 0, false, false⟩] := by
  refine ⟨AltPairs.cons _ _ _ rfl rfl (AltPairs.cons _ _ _ rfl rfl AltPairs.nil),
    pairwise4T _ _ _ _ (Or.inr ⟨rfl, fun hc => by simp [afterCut] at hc⟩)
      (Or.inl rfl) (Or.inl rfl) (Or.inl rfl) (Or.inl rfl)
      (cutle_int_le le_rfl _ _ _ _ rfl), ?_⟩
  intro p hp
  simp at hp
  rcases hp with rfl | rfl | rfl | rfl <;> rfl

theorem wf_not_falseS :
    WFpts [⟨.null, false, true⟩, ⟨.int 0, true, false⟩,
      ⟨.int 0, true, true⟩, ⟨.maxVal, false, false⟩] := by
  refine ⟨AltPairs.cons _ _ _ rfl rfl (AltPairs.cons _ _ _ rfl rfl AltPairs.nil),
    pairwise4T _ _ _ _ (Or.inl rfl) (Or.inl rfl) (Or.inl rfl)
      (cutle_int_le le_rfl _ _ _ _ rfl) (Or.inl rfl) (Or.inl rfl), ?_⟩
  intro p hp
  simp at hp
  rcases hp with rfl | rfl | rfl | rfl <;> rfl

theorem inPts_cons (n : Int) (rest : List Int) :
    inPts (n :: rest)
      = ⟨.int n, false, true⟩ :: ⟨.int n, false, false⟩ :: inPts rest := rfl

theorem lessE_int_pair (n : Int) :
    lessE ⟨.int n, false, false⟩ ⟨.int n, false, true⟩ = (false, false) := by
  simp [lessE, compareConcrete, intCmp_self, equalValueLess]

theorem lessE_int_gt (n m : Int) (h : n < m) :
    lessE ⟨.int m, false, true⟩ ⟨.int n, false, false⟩ = (false, false) := by
  simp [lessE, compareConcrete, intCmp_gt_of h]

theorem inPts_intOnly : ∀ vals : List Int, ∀ p ∈ inPts vals, intOnlyV p.value = true := by
  intro vals
  induction vals with
  | nil => intro p hp; simp [inPts] at hp
  | cons n rest ih =>
    intro p hp
    rw [inPts_cons] at hp
    rcases List.mem_cons.mp hp with rfl | hp2
    · rfl
    · rcases List.mem_cons.mp hp2 with rfl | hp3
      · rfl
      · exact ih p hp3
  
theorem inPts_alt : ∀ vals : List Int, AltPairs (inPts vals) := by
  intro vals
  induction vals with
  | nil => exact AltPairs.nil
  | cons n rest ih =>
    rw [inPts_cons]
    exact AltPairs.cons _ _ _ rfl rfl ih

theorem inPts_chainSorted : ∀ vals : List Int,
    List.Chain' (fun a b => a < b) vals → ChainSorted (inPts vals) := by
  intro vals
  induction vals with
  | nil => intro _; exact List.chain'_nil
  | cons n rest ih =>
    intro hch
    have ih2 := ih hch.tail
    rw [inPts_cons]
    refine List.chain'_cons.mpr ⟨lessE_int_pair n, ?_⟩
    cases rest with
    | nil => simp [inPts, ChainSorted]
    | cons m rest2 =>
      have hnm : n < m := (List.chain'_cons.mp hch).1
      rw [inPts_cons] at ih2 ⊢
      exact List.chain'_cons.mpr ⟨lessE_int_gt n m hnm, ih2⟩

theorem inPts_chainCut : ∀ vals : List Int,
    List.Chain' (fun a b => a < b) vals → List.Chain' CutLe (inPts vals) := by
  intro vals
  induction vals with
  | nil => intro _; exact List.chain'_nil
  | cons n rest ih =>
    intro hch
    have ih2 := ih hch.tail
    rw [inPts_cons]
    refine List.chain'_cons.mpr ⟨cutle_int_le le_rfl _ _ _ _ rfl, ?_⟩
    cases rest with
    | nil => simp [inPts]
    | cons m rest2 =>
      have hnm : n < m := (List.chain'_cons.mp hch).1
      rw [inPts_cons] at ih2 ⊢
      exact List.chain'_cons.mpr ⟨cutle_int_lt hnm _ _ _ _, ih2⟩

theorem inPts_wf (vals : List Int) (h : List.Chain' (fun a b => a < b) vals) :
    WFpts (inPts vals) :=
  ⟨inPts_alt vals,
   chain_cutLe_pairwise _ (inPts_intOnly vals) (inPts_chainCut vals h),
   inPts_intOnly vals⟩

theorem inIntervalRP_point (n m : Int) :
    inIntervalRP ⟨.int n, false, true⟩ ⟨.int n, false, false⟩ (.int m)
      = decide (m = n) := by
  unfold inIntervalRP
  simp only [valCmp]
  rcases lt_trichotomy m n with h | h | h
  · rw [intCmp_lt_of h, intCmp_gt_of h]
    simp
    omega
  · subst h
    rw [intCmp_self]
    simp
  · rw [intCmp_gt_of h, intCmp_lt_of h]
    simp
    omega

theorem inPts_contains_int (m : Int) : ∀ vals : List Int,
    containsVal (inPts vals) (.int m) = decide (m ∈ vals) := by
  intro vals
  induction vals with
  | nil => simp [inPts, containsVal]
  | cons n rest ih =>
    rw [inPts_cons]
    show (inIntervalRP _ _ _ || containsVal (inPts rest) (.int m)) = _
    rw [inIntervalRP_point, ih]
    by_cases h1 : m = n <;> by_cases h2 : m ∈ rest <;>
      simp [h1, h2, List.mem_cons]

theorem inPts_contains_null : ∀ vals : List Int,
    containsVal (inPts vals) .null = false := by
  intro vals
  induction vals with
  | nil => rfl
  | cons n rest ih =>
    rw [inPts_cons]
    show (inIntervalRP _ _ _ || containsVal (inPts rest) .null) = false
    rw [show inIntervalRP ⟨.int n, false, true⟩ ⟨.int n, false, false⟩ .null
          = false from rfl, ih]
    rfl

theorem patternInLoop_int (m : Int) : ∀ vals : List Int,
    patternInLoop false (.int m) (vals.map (fun n => Value.int n)) false
      = some (.boolv (decide (m ∈ vals))) := by
  intro vals
  induction vals with
  | nil => simp [patternInLoop]
  | cons n rest ih =>
    show patternInLoop false (.int m) (.int n :: rest.map (fun k => Value.int k)) false = _
    by_cases h : m = n
    · subst h
      simp [patternInLoop, compareConcrete, intCmp_self, List.mem_cons]
    · rcases lt_trichotomy m n with hlt | heq | hgt
      · simp [patternInLoop, compareConcrete, intCmp_lt_of hlt, ih, List.mem_cons, h]
      · exact absurd heq h
      · simp [patternInLoop, compareConcrete, intCmp_gt_of hgt, ih, List.mem_cons, h]

theorem map_getValue_vals (vals : List Int) :
    (vals.map (fun n => Expr.value (.int n))).map getValue
      = vals.map (fun n => Value.int n) := by
  induction vals with
  | nil => rfl
  | cons n rest ih => simp [getValue, ih]

theorem foldr_getValue_inPts (vals : List Int) :
    (vals.map (fun n => Expr.value (.int n))).foldr
      (fun v acc => ⟨getValue v, false, true⟩ :: ⟨getValue v, false, false⟩ :: acc) []
      = inPts vals := by
  induction vals with
  | nil => rfl
  | cons n rest ih =>
    simp only [List.map_cons, List.foldr_cons, ih]
    rfl

theorem frag_build_correct (e : Expr) (h : Frag e) :
    ∃ pts, build e = some pts ∧ WFpts pts ∧
      ∀ v, colV v = true → ∃ w t, evalE e v = some w ∧ triOf w = some t ∧
        (containsVal pts v = true ↔ t = some true) := by
  induction h with
  | cmpVC op name n hop =>
    cases op with
    | andand => exact Bool.noConfusion hop
    | oror => exact Bool.noConfusion hop
    | nulleq => exact Bool.noConfusion hop
    | plus => exact Bool.noConfusion hop
    | eq =>
      refine ⟨[⟨.int n, false, true⟩, ⟨.int n, false, false⟩], rfl, wf_eqS n, ?_⟩
      intro v hv
      rcases colV_cases v hv with rfl | ⟨m, rfl⟩
      · exact ⟨.null, none, rfl, rfl, by rw [contains_null_eqS]; simp⟩
      · refine ⟨.boolv (opHolds .eq (intCmp m n)), some (opHolds .eq (intCmp m n)),
          rfl, triOf_boolv _, ?_⟩
        rw [contains_cmp_eq]
        simp
    | ne =>
      refine ⟨[⟨.minNotNull, false, true⟩, ⟨.int n, true, false⟩,
        ⟨.int n, true, true⟩, ⟨.maxVal, false, false⟩], rfl, wf_neS n, ?_⟩
      intro v hv
      rcases colV_cases v hv with rfl | ⟨m, rfl⟩
      · exact ⟨.null, none, rfl, rfl, by rw [contains_null_neS]; simp⟩
      · refine ⟨.boolv (opHolds .ne (intCmp m n)), some (opHolds .ne (intCmp m n)),
          rfl, triOf_boolv _, ?_⟩
        rw [contains_cmp_ne]
        simp
    | lt =>
      refine ⟨[⟨.minNotNull, false, true⟩, ⟨.int n, true, false⟩], rfl, wf_ltS n, ?_⟩
      intro v hv
      rcases colV_cases v hv with rfl | ⟨m, rfl⟩
      · exact ⟨.null, none, rfl, rfl, by rw [contains_null_ltS]; simp⟩
      · refine ⟨.boolv (opHolds .lt (intCmp m n)), some (opHolds .lt (intCmp m n)),
          rfl, triOf_boolv _, ?_⟩
        rw [contains_cmp_lt]
        simp
    | le =>
      refine ⟨[⟨.minNotNull, false, true⟩, ⟨.int n, false, false⟩], rfl, wf_leS n, ?_⟩
      intro v hv
      rcases colV_cases v hv with rfl | ⟨m, rfl⟩
      · exact ⟨.null, none, rfl, rfl, by rw [contains_null_leS]; simp⟩
      · refine ⟨.boolv (opHolds .le (intCmp m n)), some (opHolds .le (intCmp m n)),
          rfl, triOf_boolv _, ?_⟩
        rw [contains_cmp_le]
        simp
    | gt =>
      refine ⟨[⟨.int n, true, true⟩, ⟨.maxVal, false, false⟩], rfl, wf_gtS n, ?_⟩
      intro v hv
      rcases colV_cases v hv with rfl | ⟨m, rfl⟩
      · exact ⟨.null, none, rfl, rfl, by rw [contains_null_gtS]; simp⟩
      · refine ⟨.boolv (opHolds .gt (intCmp m n)), some (opHolds .gt (intCmp m n)),
          rfl, triOf_boolv _, ?_⟩
        rw [contains_cmp_gt]
        simp
    | ge =>
      refine ⟨[⟨.int n, false, true⟩, ⟨.maxVal, false, false⟩], rfl, wf_geS n, ?_⟩
      intro v hv
      rcases colV_cases v hv with rfl | ⟨m, rfl⟩
      · exact ⟨.null, none, rfl, rfl, by rw [contains_null_geS]; simp⟩
      · refine ⟨.boolv (opHolds .ge (intCmp m n)), some (opHolds .ge (intCmp m n)),
          rfl, triOf_boolv _, ?_⟩
        rw [contains_cmp_ge]
        simp
  | cmpCV op name n hop =>
    cases op with
    | andand => exact Bool.noConfusion hop
    | oror => exact Bool.noConfusion hop
    | nulleq => exact Bool.noConfusion hop
    | plus => exact Bool.noConfusion hop
    | eq =>
      refine ⟨[⟨.int n, false, true⟩, ⟨.int n, false, false⟩], rfl, wf_eqS n, ?_⟩
      intro v hv
      rcases colV_cases v hv with rfl | ⟨m, rfl⟩
      · exact ⟨.null, none, rfl, rfl, by rw [contains_null_eqS]; simp⟩
      · refine ⟨.boolv (opHolds .eq (intCmp n m)), some (opHolds .eq (intCmp n m)),
          rfl, triOf_boolv _, ?_⟩
        have hf : opHolds Op.eq (intCmp m n) = opHolds Op.eq (intCmp n m) :=
          opHolds_flip .eq m n
        rw [contains_cmp_eq, hf]
        simp
    | ne =>
      refine ⟨[⟨.minNotNull, false, true⟩, ⟨.int n, true, false⟩,
        ⟨.int n, true, true⟩, ⟨.maxVal, false, false⟩], rfl, wf_neS n, ?_⟩
      intro v hv
      rcases colV_cases v hv with rfl | ⟨m, rfl⟩
      · exact ⟨.null, none, rfl, rfl, by rw [contains_null_neS]; simp⟩
      · refine ⟨.boolv (opHolds .ne (intCmp n m)), some (opHolds .ne (intCmp n m)),
          rfl, triOf_boolv _, ?_⟩
        have hf : opHolds Op.ne (intCmp m n) = opHolds Op.ne (intCmp n m) :=
          opHolds_flip .ne m n
        rw [contains_cmp_ne, hf]
        simp
    | lt =>
      refine ⟨[⟨.int n, true, true⟩, ⟨.maxVal, false, false⟩], rfl, wf_gtS n, ?_⟩
      intro v hv
      rcases colV_cases v hv with rfl | ⟨m, rfl⟩
      · exact ⟨.null, none, rfl, rfl, by rw [contains_null_gtS]; simp⟩
      · refine ⟨.boolv (opHolds .lt (intCmp n m)), some (opHolds .lt (intCmp n m)),
          rfl, triOf_boolv _, ?_⟩
        have hf : opHolds Op.gt (intCmp m n) = opHolds Op.lt (intCmp n m) :=
          opHolds_flip .lt m n
        rw [contains_cmp_gt, hf]
        simp
    | le =>
      refine ⟨[⟨.int n, false, true⟩, ⟨.maxVal, false, false⟩], rfl, wf_geS n, ?_⟩
      intro v hv
      rcases colV_cases v hv with rfl | ⟨m, rfl⟩
      · exact ⟨.null, none, rfl, rfl, by rw [contains_null_geS]; simp⟩
      · refine ⟨.boolv (opHolds .le (intCmp n m)), some (opHolds .le (intCmp n m)),
          rfl, triOf_boolv _, ?_⟩
        have hf : opHolds Op.ge (intCmp m n) = opHolds Op.le (intCmp n m) :=
          opHolds_flip .le m n
        rw [contains_cmp_ge, hf]
        simp
    | gt =>
      refine ⟨[⟨.minNotNull, false, true⟩, ⟨.int n, true, false⟩], rfl, wf_ltS n, ?_⟩
      intro v hv
      rcases colV_cases v hv with rfl | ⟨m, rfl⟩
      · exact ⟨.null, none, rfl, rfl, by rw [contains_null_ltS]; simp⟩
      · refine ⟨.boolv (opHolds .gt (intCmp n m)), some (opHolds .gt (intCmp n m)),
          rfl, triOf_boolv _, ?_⟩
        have hf : opHolds Op.lt (intCmp m n) = opHolds Op.gt (intCmp n m) :=
          opHolds_flip .gt m n
        rw [contains_cmp_lt, hf]
        simp
    | ge =>
      refine ⟨[⟨.minNotNull, false, true⟩, ⟨.int n, false, false⟩], rfl, wf_leS n, ?_⟩
      intro v hv
      rcases colV_cases v hv with rfl | ⟨m, rfl⟩
      · exact ⟨.null, none, rfl, rfl, by rw [contains_null_leS]; simp⟩
      · refine ⟨.boolv (opHolds .ge (intCmp n m)), some (opHolds .ge (intCmp n m)),
          rfl, triOf_boolv _, ?_⟩
        have hf : opHolds Op.le (intCmp m n) = opHolds Op.ge (intCmp n m) :=
          opHolds_flip .ge m n
        rw [contains_cmp_le, hf]
        simp
  | andF l r hl hr ihl ihr =>
    obtain ⟨a, hba, hwa, hsa⟩ := ihl
    obtain ⟨b, hbb, hwb, hsb⟩ := ihr
    obtain ⟨hwm, hcm⟩ := mergeRP_spec a b false hwa hwb
    refine ⟨mergeRP a b false, ?_, hwm, ?_⟩
    · simp [build, hba, hbb, intersectionRP]
    · intro v hv
      obtain ⟨wl, tl, hel, htl, hil⟩ := hsa v hv
      obtain ⟨wr, tr, her, htr, hir⟩ := hsb v hv
      refine ⟨triVal (and3 tl tr), and3 tl tr, ?_, triOf_triVal _, ?_⟩
      · simp [evalE, hel, her, htl, htr]
      · rw [hcm v (colV_intOnly v hv), and3_some_true, ← hil, ← hir]
        simp
  | orF l r hl hr ihl ihr =>
    obtain ⟨a, hba, hwa, hsa⟩ := ihl
    obtain ⟨b, hbb, hwb, hsb⟩ := ihr
    obtain ⟨hwm, hcm⟩ := mergeRP_spec a b true hwa hwb
    refine ⟨mergeRP a b true, ?_, hwm, ?_⟩
    · simp [build, hba, hbb, unionRP]
    · intro v hv
      obtain ⟨wl, tl, hel, htl, hil⟩ := hsa v hv
      obtain ⟨wr, tr, her, htr, hir⟩ := hsb v hv
      refine ⟨triVal (or3 tl tr), or3 tl tr, ?_, triOf_triVal _, ?_⟩
      · simp [evalE, hel, her, htl, htr]
      · rw [hcm v (colV_intOnly v hv), or3_some_true, ← hil, ← hir]
        simp
  | inF name vals hasc =>
    refine ⟨inPts vals, ?_, inPts_wf vals hasc, ?_⟩
    · show some (sortGo ((vals.map (fun n => Expr.value (.int n))).foldr
          (fun v acc => ⟨getValue v, false, true⟩ :: ⟨getValue v, false, false⟩ :: acc)
          [])).1 = some (inPts vals)
      rw [foldr_getValue_inPts, sortGo_of_chainSorted _ (inPts_chainSorted vals hasc)]
    · intro v hv
      rcases colV_cases v hv with rfl | ⟨m, rfl⟩
      · exact ⟨.null, none, rfl, rfl, by rw [inPts_contains_null]; simp⟩
      · refine ⟨.boolv (decide (m ∈ vals)), some (decide (m ∈ vals)), ?_,
          triOf_boolv _, ?_⟩
        · show patternInLoop false (.int m)
            ((vals.map (fun n => Expr.value (.int n))).map getValue) false = _
          rw [map_getValue_vals, patternInLoop_int]
        · rw [inPts_contains_int]
          simp
  | betweenF isNot name lo hi hle =>
    cases isNot with
    | false =>
      refine ⟨[⟨.int lo, false, true⟩, ⟨.int hi, false, false⟩], rfl,
        wf_betweenS lo hi hle, ?_⟩
      intro v hv
      rcases colV_cases v hv with rfl | ⟨m, rfl⟩
      · exact ⟨.null, none, rfl, rfl, by rw [contains_null_betweenS]; simp⟩
      · have he : evalE (.betweenE false (.col name) (.value (.int lo))
            (.value (.int hi))) (.int m)
            = some (triVal (and3 (some (opHolds .ge (intCmp m lo)))
                (some (opHolds .le (intCmp m hi))))) := by
          simp [evalE, cmp3, compareConcrete, triOf_boolv]
        refine ⟨_, and3 (some (opHolds .ge (intCmp m lo)))
          (some (opHolds .le (intCmp m hi))), he, triOf_triVal _, ?_⟩
        rw [contains_between_pts, and3_some_true]
        simp
    | true =>
      refine ⟨[⟨.minNotNull, false, true⟩, ⟨.int lo, true, false⟩,
        ⟨.int hi, true, true⟩, ⟨.maxVal, false, false⟩], rfl,
        wf_between_notS lo hi hle, ?_⟩
      intro v hv
      rcases colV_cases v hv with rfl | ⟨m, rfl⟩
      · exact ⟨.null, none, rfl, rfl, by rw [contains_null_between_notS]; simp⟩
      · have he : evalE (.betweenE true (.col name) (.value (.int lo))
            (.value (.int hi))) (.int m)
            = some (triVal (or3 (some (opHolds .lt (intCmp m lo)))
                (some (opHolds .gt (intCmp m hi))))) := by
          simp [evalE, cmp3, compareConcrete, triOf_boolv]
        refine ⟨_, or3 (some (opHolds .lt (intCmp m lo)))
          (some (opHolds .gt (intCmp m hi))), he, triOf_triVal _, ?_⟩
        rw [contains_between_not_pts, or3_some_true]
        simp
  | isNullF isNot name =>
    cases isNot with
    | false =>
      refine ⟨[⟨.null, false, true⟩, ⟨.null, false, false⟩], rfl, wf_isnullS, ?_⟩
      intro v hv
      rcases colV_cases v hv with rfl | ⟨m, rfl⟩
      · exact ⟨.boolv true, some true, rfl, rfl, by rw [contains_null_pairS]; simp⟩
      · exact ⟨.boolv false, some false, rfl, rfl, by rw [contains_int_pairS]; simp⟩
    | true =>
      refine ⟨[⟨.minNotNull, false, true⟩, ⟨.maxVal, false, false⟩], rfl,
        wf_isnull_notS, ?_⟩
      intro v hv
      rcases colV_cases v hv with rfl | ⟨m, rfl⟩
      · exact ⟨.boolv false, some false, rfl, rfl, by rw [contains_null_fullS]; simp⟩
      · exact ⟨.boolv true, some true, rfl, rfl, by rw [contains_int_fullS]; simp⟩
  | isTruthF isNot tru name =>
    cases isNot with
    | false =>
      cases tru with
      | true =>
        refine ⟨[⟨.minNotNull, false, true⟩, ⟨.int 0, true, false⟩,
          ⟨.int 0, true, true⟩, ⟨.maxVal, false, false⟩], rfl, wf_neS 0, ?_⟩
        intro v hv
        rcases colV_cases v hv with rfl | ⟨m, rfl⟩
        · exact ⟨.boolv false, some false, rfl, rfl, by rw [contains_null_neS]; simp⟩
        · have hw : evalE (.isTruthE false true (.col name)) (.int m)
              = some (.boolv (decide (m ≠ 0))) := by
            show some (Value.boolv (((if m = 0 then (0 : Int) else 1) == 1) != false))
              = some (.boolv (decide (m ≠ 0)))
            by_cases hm : m = 0 <;> simp [hm]
          refine ⟨.boolv (decide (m ≠ 0)), some (decide (m ≠ 0)), hw,
            triOf_boolv _, ?_⟩
          rw [contains_cmp_ne]
          rcases lt_trichotomy m 0 with hcc | hcc | hcc
          · rw [intCmp_lt_of hcc]
            have hne : m ≠ 0 := by omega
            simp [opHolds, hne]
          · rw [hcc, intCmp_self]
            simp [opHolds]
          · rw [intCmp_gt_of hcc]
            have hne : m ≠ 0 := by omega
            simp [opHolds, hne]
      | false =>
        refine ⟨[⟨.int 0, false, true⟩, ⟨.int 0, false, false⟩], rfl, wf_eqS 0, ?_⟩
        intro v hv
        rcases colV_cases v hv with rfl | ⟨m, rfl⟩
        · exact ⟨.boolv false, some false, rfl, rfl, by rw [contains_null_eqS]; simp⟩
        · have hw : evalE (.isTruthE false false (.col name)) (.int m)
              = some (.boolv (decide (m = 0))) := by
            show some (Value.boolv (((if m = 0 then (0 : Int) else 1) == 0) != false))
              = some (.boolv (decide (m = 0)))
            by_cases hm : m = 0 <;> simp [hm]
          refine ⟨.boolv (decide (m = 0)), some (decide (m = 0)), hw,
            triOf_boolv _, ?_⟩
          rw [contains_cmp_eq]
          rcases lt_trichotomy m 0 with hcc | hcc | hcc
          · rw [intCmp_lt_of hcc]
            have hne : m ≠ 0 := by omega
            simp [opHolds, hne]
          · rw [hcc, intCmp_self]
            simp [opHolds]
          · rw [intCmp_gt_of hcc]
            have hne : m ≠ 0 := by omega
            simp [opHolds, hne]
    | true =>
      cases tru with
      | true =>
        refine ⟨[⟨.null, false, true⟩, ⟨.null, false, false⟩,
          ⟨.int 0, false, true⟩, ⟨.int 0, false, false⟩], rfl, wf_not_truthS, ?_⟩
        intro v hv
        rcases colV_cases v hv with rfl | ⟨m, rfl⟩
        · exact ⟨.boolv true, some true, rfl, rfl,
            by rw [contains_null_not_truthS]; simp⟩
        · have hw : evalE (.isTruthE true true (.col name)) (.int m)
              = some (.boolv (decide (m = 0))) := by
            show some (Value.boolv (((if m = 0 then (0 : Int) else 1) == 1) != true))
              = some (.boolv (decide (m = 0)))
            by_cases hm : m = 0 <;> simp [hm]
          refine ⟨.boolv (decide (m = 0)), some (decide (m = 0)), hw,
            triOf_boolv _, ?_⟩
          rw [contains_not_truth_pts]
          rcases lt_trichotomy m 0 with hcc | hcc | hcc
          · rw [intCmp_lt_of hcc]
            have hne : m ≠ 0 := by omega
            simp [opHolds, hne]
          · rw [hcc, intCmp_self]
            simp [opHolds]
          · rw [intCmp_gt_of hcc]
            have hne : m ≠ 0 := by omega
            simp [opHolds, hne]
      | false =>
        refine ⟨[⟨.null, false, true⟩, ⟨.int 0, true, false⟩,
          ⟨.int 0, true, true⟩, ⟨.maxVal, false, false⟩], rfl, wf_not_falseS, ?_⟩
        intro v hv
        rcases colV_cases v hv with rfl | ⟨m, rfl⟩
        · exact ⟨.boolv true, some true, rfl, rfl,
            by rw [contains_null_not_falseS]; simp⟩
        · have hw : evalE (.isTruthE true false (.col name)) (.int m)
              = some (.boolv (decide (m ≠ 0))) := by
            show some (Value.boolv (((if m = 0 then (0 : Int) else 1) == 0) != true))
              = some (.boolv (decide (m ≠ 0)))
            by_cases hm : m = 0 <;> simp [hm]
          refine ⟨.boolv (decide (m ≠ 0)), some (decide (m ≠ 0)), hw,
            triOf_boolv _, ?_⟩
          rw [contains_not_false_pts]
          rcases lt_trichotomy m 0 with hcc | hcc | hcc
          · rw [intCmp_lt_of hcc]
            have hne : m ≠ 0 := by omega
            simp [opHolds, hne]
          · rw [hcc, intCmp_self]
            simp [opHolds]
          · rw [intCmp_gt_of hcc]
            have hne : m ≠ 0 := by omega
            simp [opHolds, hne]
  | colF name =>
    refine ⟨[⟨.minNotNull, false, true⟩, ⟨.int 0, true, false⟩,
      ⟨.int 0, true, true⟩, ⟨.maxVal, false, false⟩], rfl, wf_neS 0, ?_⟩
    intro v hv
    rcases colV_cases v hv with rfl | ⟨m, rfl⟩
    · exact ⟨.null, none, rfl, rfl, by rw [contains_null_neS]; simp⟩
    · have ht : triOf (.int m) = some (some (decide (m ≠ 0))) := by
        show some (some (decide ((if m = 0 then (0 : Int) else 1) ≠ 0)))
          = some (some (decide (m ≠ 0)))
        by_cases hm : m = 0 <;> simp [hm]
      refine ⟨.int m, some (decide (m ≠ 0)), rfl, ht, ?_⟩
      rw [contains_cmp_ne]
      rcases lt_trichotomy m 0 with hcc | hcc | hcc
      · rw [intCmp_lt_of hcc]
        have hne : m ≠ 0 := by omega
        simp [opHolds, hne]
      · rw [hcc, intCmp_self]
        simp [opHolds]
      · rw [intCmp_gt_of hcc]
        have hne : m ≠ 0 := by omega
        simp [opHolds, hne]
  | parenF x hx ih =>
    obtain ⟨pts, hb, hw, hs⟩ := ih
    refine ⟨pts, ?_, hw, ?_⟩
    · show build x = some pts
      exact hb
    · intro v hv
      obtain ⟨w, t, he, ht, hi⟩ := hs v hv
      refine ⟨w, t, ?_, ht, hi⟩
      show evalE x v = some w
      exact he

theorem evalBool_of_triOf (e : Expr) (v : Value) (w : Value) (t : Option Bool)
    (he : evalE e v = some w) (ht : triOf w = some t) (c : Bool)
    (hi : c = true ↔ t = some true) :
    evalBool e v = some c := by
  unfold evalBool
  rw [he]
  cases w with
  | null =>
    have ht2 : t = none := (Option.some.inj ht).symm
    subst ht2
    have hc : c = false := by
      cases hcv : c
      · rfl
      · exact absurd (hi.mp hcv) (by simp)
    subst hc
    rfl
  | minNotNull => exact Option.noConfusion ht
  | maxVal => exact Option.noConfusion ht
  | str s => exact Option.noConfusion ht
  | int k =>
    have ht2 : t = some (decide ((if k = 0 then (0 : Int) else 1) ≠ 0)) :=
      (Option.some.inj ht).symm
    subst ht2
    show some (decide ((if k = 0 then (0 : Int) else 1) ≠ 0)) = some c
    cases hX : decide ((if k = 0 then (0 : Int) else 1) ≠ 0)
    · have hc : c = false := by
        cases hcv : c
        · rfl
        · have h2 := hi.mp hcv
          rw [hX] at h2
          exact absurd h2 (by simp)
      rw [hc]
    · have hc : c = true := hi.mpr (by rw [hX])
      rw [hc]
  | boolv b =>
    have ht2 : t = some (decide ((if b then (1 : Int) else 0) ≠ 0)) :=
      (Option.some.inj ht).symm
    subst ht2
    show some (decide ((if b then (1 : Int) else 0) ≠ 0)) = some c
    cases hX : decide ((if b then (1 : Int) else 0) ≠ 0)
    · have hc : c = false := by
        cases hcv : c
        · rfl
        · have h2 := hi.mp hcv
          rw [hX] at h2
          exact absurd h2 (by simp)
      rw [hc]
    · have hc : c = true := hi.mpr (by rw [hX])
      rw [hc]

/-- C1, counterexample to the unrestricted claim: on `a IN (NULL)` the
builder emits the point pair `[NULL, NULL]`, so the value NULL lies in an
interval of the built range list, yet `EvalBool` returns false on NULL
(`patternIn` yields SQL NULL, which `EvalBool` maps to false).  The
"evaluates to true ⇔ lies in some interval" equivalence is therefore
false as stated. -/
theorem c1_counterexample :
    build (.inE false (.col "a") [.value .null])
      = some [⟨.null, false, true⟩, ⟨.null, false, false⟩]
    ∧ evalBool (.inE false (.col "a") [.value .null]) .null = some false
    ∧ containsVal [⟨.null, false, true⟩, ⟨.null, false, false⟩] .null = true := by
  refine ⟨?_, rfl, rfl⟩
  rfl

/-- C1, amended: over the integer fragment `Frag` (column-vs-integer
comparisons on either side, AND, OR, parentheses, IN over strictly
increasing non-NULL integer lists, `[NOT] BETWEEN` with ordered integer
bounds, `IS [NOT] NULL`, `IS [NOT] TRUE/FALSE`, the bare column — NULL
list elements, duplicate/unsorted IN lists, swapped BETWEEN bounds and
LIKE are excluded, the latter because of the `.`-wildcard bug of C4),
`build` succeeds and, for every column value in the integer domain
(NULL or an integer), `EvalBool` of the expression equals membership of
the value in the built range list. -/
theorem c1_amended (e : Expr) (h : Frag e) :
    ∃ pts, build e = some pts ∧ ∀ v, colV v = true →
      evalBool e v = some (containsVal pts v) := by
  obtain ⟨pts, hb, _, hs⟩ := frag_build_correct e h
  refine ⟨pts, hb, fun v hv => ?_⟩
  obtain ⟨w, t, he, ht, hi⟩ := hs v hv
  exact evalBool_of_triOf e v w t he ht _ hi

/-- C1 amended, witness: the fragment membership hypothesis discharged on
the concrete expression `a = 1`. -/
theorem c1_amended_witness :
    Frag (.binop .eq (.col "a") (.value (.int 1)))
    ∧ ∃ pts, build (.binop .eq (.col "a") (.value (.int 1))) = some pts
        ∧ ∀ v, colV v = true →
          evalBool (.binop .eq (.col "a") (.value (.int 1))) v
            = some (containsVal pts v) :=
  ⟨Frag.cmpVC .eq "a" 1 rfl, c1_amended _ (Frag.cmpVC .eq "a" 1 rfl)⟩
